import Mathlib

/-!
Verification of the streaming tool-call orchestration core of the
"Campaign Builder AI" browser MCP chat client.

The definitions below are a shallow embedding of the TypeScript source
(the `MCPClient` component): the SSE stream decoder of
`handleStreamingResponse`, the provider-A (OpenAI) tool-call
accumulator, the tool-execution loop `executeToolCalls` (session
extraction and injection, abort checks, history appends), the Anthropic
tool-name sanitization of `callLLM`, and the provider-history
operations.  JavaScript strings are modelled as `List Char` where
index/slice arithmetic matters and as `String` elsewhere; the builtins
`JSON.parse` / `JSON.stringify` are modelled by an executable JSON
parser / printer over an integer-fragment JSON value type.
-/

/-- JSON values as produced by the JavaScript builtin `JSON.parse`.
Numbers are modelled as integers, the fragment this program exercises;
`undefined` is represented by `Option.none` at use sites. -/
inductive Json where
  | jnull
  | jbool (b : Bool)
  | jnum (n : Int)
  | jstr (s : String)
  | jarr (xs : List Json)
  | jobj (fields : List (String × Json))

/-- Boolean equality on JSON values (structural). -/
def jsonBeq : Json → Json → Bool
  | .jnull, .jnull => true
  | .jbool a, .jbool b => a == b
  | .jnum a, .jnum b => a == b
  | .jstr a, .jstr b => a == b
  | .jarr xs, .jarr ys =>
      match xs, ys with
      | [], [] => true
      | x :: xs', y :: ys' => jsonBeq x y && jsonBeq (.jarr xs') (.jarr ys')
      | _, _ => false
  | .jobj xs, .jobj ys =>
      match xs, ys with
      | [], [] => true
      | (k, x) :: xs', (l, y) :: ys' =>
          k == l && jsonBeq x y && jsonBeq (.jobj xs') (.jobj ys')
      | _, _ => false
  | _, _ => false

/-- JavaScript truthiness of a JSON value (`if (v)`). -/
def jtruthy : Json → Bool
  | .jnull => false
  | .jbool b => b
  | .jnum n => n != 0
  | .jstr s => s != ""
  | .jarr _ => true
  | .jobj _ => true

/-- Property access `v.key` on a JSON value.  Only objects have fields;
for parsed JSON objects JavaScript keeps the last duplicate key, so the
last binding wins.  (Access on `null`, which would throw in JavaScript,
is modelled as no field; no claim exercises it.) -/
def Json.getField : Json → String → Option Json
  | .jobj fs, k => fs.foldl (fun acc kv => if kv.1 == k then some kv.2 else acc) none
  | _, _ => none

/-- Array index access `v[i]`. -/
def Json.getIdx : Json → Nat → Option Json
  | .jarr xs, i => xs.get? i
  | _, _ => none

/-- Optional-chaining field access: `v?.key`. -/
def jfield (v : Option Json) (k : String) : Option Json :=
  v.bind (fun j => j.getField k)

/-- Optional-chaining index access: `v?.[i]`. -/
def jidx (v : Option Json) (i : Nat) : Option Json :=
  v.bind (fun j => j.getIdx i)

/-- `typeof v === 'object'` is true in JavaScript for objects, arrays
and `null`. -/
def jsTypeofObject : Json → Bool
  | .jobj _ => true
  | .jarr _ => true
  | .jnull => true
  | _ => false

/-- String coercion of a primitive, as in `String(v)` / `+=`.
Composite values are modelled loosely (no claim depends on them). -/
def jsCoerceStr : Json → String
  | .jnull => "null"
  | .jbool true => "true"
  | .jbool false => "false"
  | .jnum n => toString n
  | .jstr s => s
  | .jarr _ => ""
  | .jobj _ => "[object Object]"

/-- Escape one character for JSON string output (quote and backslash;
control characters are not exercised by the program). -/
def jsonEscChar (c : Char) : String :=
  if c = '"' then "\\\""
  else if c = '\\' then "\\\\"
  else String.singleton c

/-- Escape a string for JSON output. -/
def jsonEscape (s : String) : String :=
  String.join (s.toList.map jsonEscChar)

/-- Model of the JavaScript builtin `JSON.stringify` on the integer
fragment of JSON. -/
def jsonStringify : Json → String
  | .jnull => "null"
  | .jbool true => "true"
  | .jbool false => "false"
  | .jnum n => toString n
  | .jstr s => "\"" ++ jsonEscape s ++ "\""
  | .jarr xs => "[" ++ String.intercalate "," (xs.attach.map (fun x => jsonStringify x.1)) ++ "]"
  | .jobj fs => "\x7b" ++
      String.intercalate ","
        (fs.attach.map (fun kv => "\"" ++ jsonEscape kv.1.1 ++ "\":" ++ jsonStringify kv.1.2))
      ++ "\x7d"
decreasing_by
  · have := List.sizeOf_lt_of_mem x.2
    simp [Json.jarr.sizeOf_spec]
    omega
  · obtain ⟨⟨k, v⟩, hmem⟩ := kv
    have := List.sizeOf_lt_of_mem hmem
    simp [Json.jobj.sizeOf_spec, Prod.mk.sizeOf_spec] at this ⊢
    omega

/-- JSON whitespace. -/
def jsonWs (c : Char) : Bool :=
  c == ' ' || c == '\t' || c == '\n' || c == '\r'

/-- Skip leading JSON whitespace. -/
def skipWs : List Char → List Char
  | [] => []
  | c :: rest => if jsonWs c then skipWs rest else c :: rest

/-- Decode a JSON string escape character (the subset exercised). -/
def jsonEscDecode (c : Char) : Option Char :=
  if c = '"' then some '"'
  else if c = '\\' then some '\\'
  else if c = '/' then some '/'
  else if c = 'n' then some '\n'
  else if c = 't' then some '\t'
  else if c = 'r' then some '\r'
  else none

/-- Parse the body of a JSON string literal after the opening quote;
returns the decoded characters and the input after the closing quote. -/
def jsonParseStrBody : List Char → Option (List Char × List Char)
  | [] => none
  | '"' :: rest => some ([], rest)
  | '\\' :: e :: rest =>
      match jsonEscDecode e with
      | none => none
      | some c =>
        match jsonParseStrBody rest with
        | none => none
        | some (s, r) => some (c :: s, r)
  | c :: rest =>
      match jsonParseStrBody rest with
      | none => none
      | some (s, r) => some (c :: s, r)

/-- Take a maximal run of decimal digits. -/
def takeDigits : List Char → (List Char × List Char)
  | [] => ([], [])
  | c :: rest =>
      if c.isDigit then
        let (ds, r) := takeDigits rest
        (c :: ds, r)
      else ([], c :: rest)

/-- Numeric value of a digit run. -/
def digitsVal (ds : List Char) : Nat :=
  ds.foldl (fun acc c => acc * 10 + (c.toNat - '0'.toNat)) 0

/-- Check that `pat` is a prefix of `s`; on success return the rest. -/
def chopLit : List Char → List Char → Option (List Char)
  | [], s => some s
  | p :: ps, c :: s => if p = c then chopLit ps s else none
  | _ :: _, [] => none

mutual

/-- Model of the JavaScript builtin `JSON.parse` (integer-number
fragment): parse one JSON value, fuel-bounded recursive descent. -/
def jparseV : Nat → List Char → Option (Json × List Char)
  | 0, _ => none
  | fuel + 1, s =>
    match skipWs s with
    | [] => none
    | c :: rest =>
      if c = 'n' then
        (chopLit ['u', 'l', 'l'] rest).map (fun r => (Json.jnull, r))
      else if c = 't' then
        (chopLit ['r', 'u', 'e'] rest).map (fun r => (Json.jbool true, r))
      else if c = 'f' then
        (chopLit ['a', 'l', 's', 'e'] rest).map (fun r => (Json.jbool false, r))
      else if c = '"' then
        (jsonParseStrBody rest).map (fun p => (Json.jstr (String.mk p.1), p.2))
      else if c = '-' then
        match takeDigits rest with
        | ([], _) => none
        | (ds, r) => some (Json.jnum (-(digitsVal ds : Int)), r)
      else if c.isDigit then
        match takeDigits (c :: rest) with
        | ([], _) => none
        | (ds, r) => some (Json.jnum (digitsVal ds : Int), r)
      else if c = '[' then
        match skipWs rest with
        | ']' :: r => some (Json.jarr [], r)
        | r2 => (jparseItems fuel r2).map (fun p => (Json.jarr p.1, p.2))
      else if c = '\x7b' then
        match skipWs rest with
        | '\x7d' :: r => some (Json.jobj [], r)
        | r2 => (jparseMembers fuel r2).map (fun p => (Json.jobj p.1, p.2))
      else none

/-- Parse one-or-more comma-separated array items. -/
def jparseItems : Nat → List Char → Option (List Json × List Char)
  | 0, _ => none
  | fuel + 1, s =>
    match jparseV fuel s with
    | none => none
    | some (v, r) =>
      match skipWs r with
      | ',' :: r2 =>
          (jparseItems fuel r2).map (fun p => (v :: p.1, p.2))
      | ']' :: r2 => some ([v], r2)
      | _ => none

/-- Parse one-or-more comma-separated object members. -/
def jparseMembers : Nat → List Char → Option (List (String × Json) × List Char)
  | 0, _ => none
  | fuel + 1, s =>
    match skipWs s with
    | '"' :: rest =>
      match jsonParseStrBody rest with
      | none => none
      | some (k, r) =>
        match skipWs r with
        | ':' :: r2 =>
          match jparseV fuel r2 with
          | none => none
          | some (v, r3) =>
            match skipWs r3 with
            | ',' :: r4 =>
                (jparseMembers fuel r4).map
                  (fun p => ((String.mk k, v) :: p.1, p.2))
            | '\x7d' :: r4 => some ([(String.mk k, v)], r4)
            | _ => none
        | _ => none
    | _ => none

end

/-- Model of `JSON.parse` on a whole string: a value followed only by
whitespace; anything else throws (returns `none`). -/
def jparse (s : String) : Option Json :=
  match jparseV (s.length + 1) s.toList with
  | none => none
  | some (v, r) => if skipWs r = [] then some v else none

/-! ## SSE stream decoder

Shallow embedding of the event-boundary loop of
`handleStreamingResponse`: the buffer accumulates decoded text chunks;
every complete SSE block (terminated by the earliest `\r\n\r\n` or
`\n\n`) is isolated, normalized, and reduced to an optional `event:`
name plus the newline-joined `data:` payload.  A payload of `[DONE]`
terminates decoding.  Buffers are `List Char`. -/

/-- `s.startsWith pat` on character lists (first argument is the
pattern). -/
def listStartsWith : List Char → List Char → Bool
  | [], _ => true
  | _ :: _, [] => false
  | p :: ps, c :: cs => p == c && listStartsWith ps cs

/-- Index of the first occurrence of `pat` in `s` (model of
`String.indexOf`, `none` for `-1`). -/
def firstMatch (pat : List Char) : List Char → Option Nat
  | [] => if pat.isEmpty then some 0 else none
  | s@(_ :: rest) =>
      if listStartsWith pat s then some 0
      else (firstMatch pat rest).map (· + 1)

/-- The CRLFCRLF event boundary. -/
def crlfPat : List Char := ['\r', '\n', '\r', '\n']

/-- The LFLF event boundary. -/
def lflfPat : List Char := ['\n', '\n']

/-- Boundary search of the stream loop: earliest of the two boundary
patterns, with its length (`crlf !== -1 && (lflf === -1 || crlf < lflf)`
picks CRLFCRLF, otherwise LFLF). -/
def findBoundary (buf : List Char) : Option (Nat × Nat) :=
  match firstMatch crlfPat buf, firstMatch lflfPat buf with
  | some c, some l => if c < l then some (c, 4) else some (l, 2)
  | some c, none => some (c, 4)
  | none, some l => some (l, 2)
  | none, none => none

/-- One-pass reformulation of `findBoundary` used in proofs. -/
def findBoundaryScan : List Char → Option (Nat × Nat)
  | [] => none
  | s@(_ :: rest) =>
      if listStartsWith crlfPat s then some (0, 4)
      else if listStartsWith lflfPat s then some (0, 2)
      else (findBoundaryScan rest).map (fun p => (p.1 + 1, p.2))

/-- Split on `'\n'`, keeping empty segments (model of
`String.split('\n')`). -/
def splitLines : List Char → List (List Char)
  | [] => [[]]
  | c :: rest =>
      if c = '\n' then [] :: splitLines rest
      else
        match splitLines rest with
        | [] => [[c]]
        | l :: ls => (c :: l) :: ls

/-- JavaScript `trimStart` (on the whitespace characters occurring in
SSE blocks). -/
def jsTrimStart : List Char → List Char
  | [] => []
  | c :: rest => if jsonWs c then jsTrimStart rest else c :: rest

/-- JavaScript `trim`. -/
def jsTrim (s : List Char) : List Char :=
  ((jsTrimStart ((jsTrimStart s).reverse)).reverse)

/-- The `event:` field tag. -/
def eventFieldTag : List Char := ['e', 'v', 'e', 'n', 't', ':']

/-- The `data:` field tag. -/
def dataFieldTag : List Char := ['d', 'a', 't', 'a', ':']

/-- One decoded SSE event tuple. -/
structure SSEEvent where
  eventName : Option String
  payload : String
deriving DecidableEq, Repr

/-- Reduce one isolated raw block to its optional event name and its
newline-joined data payload: normalize line endings, take the first
`event:` line (trimmed), join all `data:` lines (trim-started) with a
newline. -/
def parseBlock (raw : List Char) : Option String × String :=
  let normalized := raw.filter (fun c => c ≠ '\r')
  let lines := splitLines normalized
  let eventName := (lines.find? (fun l => listStartsWith eventFieldTag l)).map
      (fun l => String.mk (jsTrim (l.drop 6)))
  let dataPayload := List.intercalate ['\n']
      ((lines.filter (fun l => listStartsWith dataFieldTag l)).map
        (fun l => jsTrimStart (l.drop 5)))
  (eventName, String.mk dataPayload)

/-- `listStartsWith` needs at least the pattern's length. -/
def listStartsWith_le :
    ∀ pat s : List Char, listStartsWith pat s = true → pat.length ≤ s.length := by
  intro pat
  induction pat with
  | nil => intro s _; exact Nat.zero_le _
  | cons p ps ih =>
    intro s h
    cases s with
    | nil => simp [listStartsWith] at h
    | cons c cs =>
      simp only [listStartsWith, Bool.and_eq_true] at h
      simpa [List.length] using Nat.succ_le_succ (ih cs h.2)

/-- A first match fits inside the string. -/
def firstMatch_bound :
    ∀ (pat s : List Char) i, firstMatch pat s = some i →
      i + pat.length ≤ s.length := by
  intro pat s
  induction s with
  | nil =>
    intro i h
    simp only [firstMatch] at h
    split at h
    · cases h
      simp_all [List.isEmpty_iff]
    · cases h
  | cons c cs ih =>
    intro i h
    simp only [firstMatch] at h
    split at h
    · cases h
      simpa using listStartsWith_le pat (c :: cs) (by assumption)
    · cases hm : firstMatch pat cs with
      | none => rw [hm] at h; cases h
      | some j =>
        rw [hm] at h
        cases h
        have := ih j hm
        simp [List.length]
        omega

/-- A boundary fits inside the buffer and has positive length. -/
def findBoundary_bound :
    ∀ (s : List Char) i n, findBoundary s = some (i, n) →
      0 < n ∧ i + n ≤ s.length := by
  intro s i n h
  unfold findBoundary at h
  cases hc : firstMatch crlfPat s with
  | some c =>
    have bc := firstMatch_bound crlfPat s c hc
    simp only [crlfPat, List.length] at bc
    cases hl : firstMatch lflfPat s with
    | some l =>
      have bl := firstMatch_bound lflfPat s l hl
      simp only [lflfPat, List.length] at bl
      rw [hc, hl] at h
      dsimp only at h
      by_cases hcl : c < l
      · rw [if_pos hcl] at h
        simp only [Option.some.injEq, Prod.mk.injEq] at h
        obtain ⟨rfl, rfl⟩ := h
        constructor <;> omega
      · rw [if_neg hcl] at h
        simp only [Option.some.injEq, Prod.mk.injEq] at h
        obtain ⟨rfl, rfl⟩ := h
        constructor <;> omega
    | none =>
      rw [hc, hl] at h
      dsimp only at h
      simp only [Option.some.injEq, Prod.mk.injEq] at h
      obtain ⟨rfl, rfl⟩ := h
      constructor <;> omega
  | none =>
    cases hl : firstMatch lflfPat s with
    | some l =>
      have bl := firstMatch_bound lflfPat s l hl
      simp only [lflfPat, List.length] at bl
      rw [hc, hl] at h
      dsimp only at h
      simp only [Option.some.injEq, Prod.mk.injEq] at h
      obtain ⟨rfl, rfl⟩ := h
      constructor <;> omega
    | none => rw [hc, hl] at h; cases h

/-- Drain every complete event block from the buffer, in order: the
body of the inner `while (true)` loop.  Returns the decoded event
tuples, the remaining buffer, and whether a `[DONE]` payload terminated
the stream. -/
def drain (buf : List Char) : List SSEEvent × List Char × Bool :=
  match h : findBoundary buf with
  | none => ([], buf, false)
  | some (i, n) =>
      let raw := buf.take i
      let rest := buf.drop (i + n)
      let p := parseBlock raw
      if p.2 = "" then drain rest
      else if p.2 = "[DONE]" then ([], rest, true)
      else
        let r := drain rest
        (⟨p.1, p.2⟩ :: r.1, r.2.1, r.2.2)
termination_by buf.length
decreasing_by
  all_goals
    have := findBoundary_bound buf i n h
    simp [List.length_drop]
    omega

/-- Decoder state across chunk arrivals: pending buffer, events emitted
so far, and the `[DONE]` flag (after which the read loop has been
exited and nothing further is processed). -/
structure DecState where
  buffer : List Char
  events : List SSEEvent
  done : Bool
deriving Repr

/-- Initial decoder state. -/
def initDecState : DecState := ⟨[], [], false⟩

/-- Process one arriving chunk: append to the buffer and drain all
complete events (no-op once the stream was terminated by `[DONE]`). -/
def feed (st : DecState) (chunk : List Char) : DecState :=
  if st.done then st
  else
    let r := drain (st.buffer ++ chunk)
    ⟨r.2.1, st.events ++ r.1, r.2.2⟩

/-- Process a sequence of chunks. -/
def feedAll (st : DecState) : List (List Char) → DecState
  | [] => st
  | c :: cs => feedAll (feed st c) cs

/-! ## Provider-A (OpenAI) tool-call accumulator

Embedding of the `accumulatedToolCalls` logic of
`handleStreamingResponse`: per-index records built from incremental
deltas, a completeness check after every delta event, emission of every
complete record as a `ToolCall`, and — as written in the source — a
reset of the whole accumulation object once any record completes. -/

/-- JavaScript truthiness of an optional string field (absent or empty
is falsy). -/
def truthyS : Option String → Bool
  | some s => s != ""
  | none => false

/-- One provider-A tool-call delta (`choices[0].delta.tool_calls[k]`):
positional index plus optional id/type/function-name/argument-fragment
strings. -/
structure OAIDelta where
  index : Nat
  id : Option String
  jstype : Option String
  fname : Option String
  fargs : Option String
deriving DecidableEq, Repr

/-- One accumulating record (`accumulatedToolCalls[index]`). -/
structure AccRecord where
  id : String
  jstype : String
  fname : String
  fargs : String
deriving DecidableEq, Repr

/-- The accumulation object, keyed by delta index.  JavaScript objects
enumerate integer-like keys in ascending numeric order, so the map is
kept sorted by key. -/
def accFind (m : List (Nat × AccRecord)) (i : Nat) : Option AccRecord :=
  (m.find? (fun jq => jq.1 == i)).map (fun jq => jq.2)

/-- Insert a fresh record, keeping keys in ascending order. -/
def accInsertNew : List (Nat × AccRecord) → Nat → AccRecord → List (Nat × AccRecord)
  | [], i, r => [(i, r)]
  | (j, q) :: rest, i, r =>
      if i < j then (i, r) :: (j, q) :: rest
      else (j, q) :: accInsertNew rest i r

/-- Update the record at a key in place. -/
def accUpdate (m : List (Nat × AccRecord)) (i : Nat) (f : AccRecord → AccRecord) :
    List (Nat × AccRecord) :=
  m.map (fun jq => if jq.1 == i then (jq.1, f jq.2) else jq)

/-- The `forEach` body: create the record on first sight of an index
(with `|| ''` / `|| 'function'` defaults), otherwise append the
argument fragment and overwrite name/id when the delta carries truthy
ones. -/
def applyOAIDelta (m : List (Nat × AccRecord)) (tc : OAIDelta) : List (Nat × AccRecord) :=
  match accFind m tc.index with
  | none =>
      accInsertNew m tc.index
        ⟨tc.id.getD "", (if truthyS tc.jstype then tc.jstype.getD "" else "function"),
         tc.fname.getD "", tc.fargs.getD ""⟩
  | some _ =>
      let m1 := if truthyS tc.fargs then
          accUpdate m tc.index (fun r => { r with fargs := r.fargs ++ tc.fargs.getD "" })
        else m
      let m2 := if truthyS tc.fname then
          accUpdate m1 tc.index (fun r => { r with fname := tc.fname.getD "" })
        else m1
      if truthyS tc.id then
        accUpdate m2 tc.index (fun r => { r with id := tc.id.getD "" })
      else m2

/-- Completeness of a record: non-empty name and arguments, and the
accumulated argument string parses as (truthy) JSON
(`tc.function.name && tc.function.arguments && JSON.parse(...)` inside
`try`). -/
def recComplete (r : AccRecord) : Bool :=
  r.fname != "" && r.fargs != "" &&
    (match jparse r.fargs with
     | some v => jtruthy v
     | none => false)

/-- The complete records of the accumulation object, in key order
(`Object.values(...).filter(...)`). -/
def completeOf (m : List (Nat × AccRecord)) : List AccRecord :=
  (m.map (fun jq => jq.2)).filter recComplete

/-- A reassembled tool call handed to execution. -/
structure MToolCall where
  id : String
  name : String
  args : Json

/-- Turn a complete record into a `ToolCall`
(`args: JSON.parse(tc.function.arguments)`; completeness guarantees
the parse succeeds, `jnull` is an unreachable default). -/
def recToCall (r : AccRecord) : MToolCall :=
  ⟨r.id, r.fname, (jparse r.fargs).getD Json.jnull⟩

/-- Process one delta event (`tcArr`): apply every delta, then — if any
record is now complete — emit all complete records and reset the whole
accumulation object (`accumulatedToolCalls = {}` in the source). -/
def oaiAccumStep (m : List (Nat × AccRecord)) (tcArr : List OAIDelta) :
    List (Nat × AccRecord) × List AccRecord :=
  let m2 := tcArr.foldl applyOAIDelta m
  let complete := completeOf m2
  if complete.isEmpty then (m2, []) else ([], complete)

/-- Run a script of delta events from an empty accumulator, collecting
the emitted batches in order. -/
def runOAIDeltas (script : List (List OAIDelta)) :
    List (Nat × AccRecord) × List (List MToolCall) :=
  script.foldl
    (fun st ev =>
      let p := oaiAccumStep st.1 ev
      (p.1, st.2 ++ (if p.2.isEmpty then [] else [p.2.map recToCall])))
    ([], [])

/-- Delta script for a single tool call at index 0 whose argument
string arrives split into fragments: the first delta carries id and
name, later deltas only argument fragments. -/
def singleCallScript (tid tname : String) (frags : List String) : List (List OAIDelta) :=
  match frags with
  | [] => []
  | f :: fs =>
      [OAIDelta.mk 0 (some tid) (some "function") (some tname) (some f)] ::
        fs.map (fun g => [OAIDelta.mk 0 none none none (some g)])

/-! ## Tool execution (`executeToolCalls`)

Embedding of the sequential tool-execution loop: abort checks before
each call and after each successful call, Anthropic safe-name mapping,
`session_id` injection and extraction, per-call status/result updates,
and the provider-specific history appends after the batch.  External
effects (`setMessages`, `setActiveToolCall`, `addLog`,
`mcpClient.callTool`) are recorded as an event trace; the tool server
is an oracle giving each call's outcome and whether the user pressed
stop while it ran.  `Date` timestamps and the campaign-summary UI table
are not modelled (pure display).

`sessionId` is React `useState` state: the whole run executes inside
one render's closures, so every read of `sessionId` — the injection
guard and the extraction guard alike — sees the value the render
captured (`frozen` below), while `setSessionId` only writes the state
cell a later render will see.  The loop therefore carries two session
values: the immutable `frozen` closure value, and the mutable pending
cell `OrchState.session` (equal to `frozen` when the run starts, and
overwritten by each `setSessionId`). -/

/-- The two providers whose tool loop is exercised. -/
inductive Provider where
  | openai
  | anthropic
deriving DecidableEq, Repr

/-- Tool-call status (`'pending' | 'success' | 'error' | 'paused'`). -/
inductive MStatus where
  | pending
  | success
  | error
  | paused
deriving DecidableEq, Repr

/-- Final state of one `ToolCall` record after the loop (status, the
processed displayable result, the error message). -/
structure TCState where
  tc : MToolCall
  status : MStatus
  result : Option String
  errMsg : Option String

/-- Outcome of one `mcpClient.callTool` invocation. -/
inductive CallOutcome where
  | ok (result : Json)
  | err (msg : String)

/-- Oracle for a batch run: the `i`-th call's outcome, and whether the
abort flag was set while the `i`-th call was in flight. -/
structure ExecEnv where
  outcome : Nat → CallOutcome
  abortDuring : Nat → Bool

/-- Orchestrator state threading through the loop: the `sessionId`
state cell as `setSessionId` leaves it (visible only to later runs)
and the shared abort flag (`abortedRef`, a ref — reads are live). -/
structure OrchState where
  session : Option Json
  aborted : Bool

/-- Externally visible effects of the loop, in order: React state
mutations (`setActiveToolCall`, `updateToolCallStatus`, forced
`setMessages` refresh, `addLog`) and tool invocations. -/
inductive ExecEv where
  | setActive (oid : Option String)
  | uiStatus (id : String) (st : MStatus)
  | forceUi
  | callTool (name : String) (args : Json)
  | logMsg (s : String)

/-- Recognize a tool-invocation event. -/
def isCallEv : ExecEv → Bool
  | .callTool _ _ => true
  | _ => false

/-- Truthiness of the stored `sessionId` state. -/
def sessTruthy : Option Json → Bool
  | some v => jtruthy v
  | none => false

/-- Truthiness of an optional JSON value (an absent property is
`undefined`, hence falsy). -/
def jtruthyOpt : Option Json → Bool
  | some v => jtruthy v
  | none => false

/-- JavaScript property assignment `obj[k] = v`: overwrite in place if
the key exists, else append. -/
def objSet (fs : List (String × Json)) (k : String) (v : Json) : List (String × Json) :=
  if fs.any (fun kv => kv.1 == k) then
    fs.map (fun kv => if kv.1 == k then (k, v) else kv)
  else fs ++ [(k, v)]

/-- Fields of `{ ...tc.args }` (spreading a non-object yields an empty
object). -/
def argsObjFields (args : Json) : List (String × Json) :=
  match args with
  | .jobj fs => fs
  | _ => []

/-- The condition `sessionId && !toolArgs.session_id` guarding
auto-injection. -/
def injectionHappens (session : Option Json) (args : Json) : Bool :=
  match session with
  | some sv =>
      jtruthy sv && !jtruthyOpt ((Json.jobj (argsObjFields args)).getField "session_id")
  | none => false

/-- The argument object sent to the gateway:
`const toolArgs = { ...tc.args }; if (sessionId && !toolArgs.session_id)
toolArgs.session_id = sessionId;` -/
def injectSessionId (session : Option Json) (args : Json) : Json :=
  let fs := argsObjFields args
  match session with
  | some sv =>
      if injectionHappens session args then Json.jobj (objSet fs "session_id" sv)
      else Json.jobj fs
  | none => Json.jobj fs

/-- Scan of the `content` array items, in order: first an object field
`session_id`, then — for the same item — JSON embedded in a truthy
`text` string; first (truthy) match breaks the loop. -/
def extractFromItems : List Json → Option Json
  | [] => none
  | item :: rest =>
      if jsTypeofObject item && jtruthyOpt (item.getField "session_id") then
        item.getField "session_id"
      else if jsTypeofObject item && jtruthyOpt (item.getField "text") then
        match item.getField "text" with
        | some (.jstr s) =>
            (match jparse s with
             | some parsed =>
                 if jtruthyOpt (parsed.getField "session_id") then
                   parsed.getField "session_id"
                 else extractFromItems rest
             | none => extractFromItems rest)
        | _ => extractFromItems rest
  else extractFromItems rest

/-- Session extraction from a successful tool result, exactly as in the
source: under a truthy `content` — array-item scan, else direct object
field, else JSON-embedded string — and finally a top-level
`session_id`. -/
def extractSessionId (result : Json) : Option Json :=
  let fromContent : Option Json :=
    match result.getField "content" with
    | some content =>
        if jtruthy content then
          match content with
          | .jarr items => extractFromItems items
          | .jstr s =>
              (match jparse s with
               | some parsed =>
                   if jtruthyOpt (parsed.getField "session_id") then
                     parsed.getField "session_id"
                   else none
               | none => none)
          | _ =>
              if jsTypeofObject content && jtruthyOpt (content.getField "session_id") then
                content.getField "session_id"
              else none
        else none
    | none => none
  match fromContent with
  | some v => some v
  | none =>
      if jtruthyOpt (result.getField "session_id") then result.getField "session_id"
      else none

/-- Displayable payload extraction (`processedResult`): a `content`
array is flattened to its text parts joined by newlines, an object
`content` is stringified, a primitive `content` is string-coerced;
without a `content` field, the whole result is the payload.  (On a
primitive result the source's `'content' in result` would throw; the
model takes the fallback branch, no claim exercises it.) -/
def processToolResult (result : Json) : String :=
  match result.getField "content" with
  | some (.jarr items) =>
      String.intercalate "\n" (items.map (fun item =>
        if jsTypeofObject item &&
            (match item.getField "type" with
             | some (.jstr t) => t == "text"
             | _ => false) &&
            jtruthyOpt (item.getField "text") then
          jsCoerceStr ((item.getField "text").getD Json.jnull)
        else match item with
          | .jstr s => s
          | _ => jsonStringify item))
  | some (.jobj fs) => jsonStringify (Json.jobj fs)
  | some .jnull => jsonStringify Json.jnull
  | some prim => jsCoerceStr prim
  | none =>
      match result with
      | .jstr s => s
      | _ => jsonStringify result

/-- JavaScript `Map.get` (last `set` wins). -/
def mapGet (m : List (String × String)) (k : String) : Option String :=
  m.foldl (fun acc kv => if kv.1 == k then some kv.2 else acc) none

/-- JavaScript `Map.set`: overwrite in place if present, else append. -/
def mapSet (m : List (String × String)) (k v : String) : List (String × String) :=
  if m.any (fun kv => kv.1 == k) then
    m.map (fun kv => if kv.1 == k then (k, v) else kv)
  else m ++ [(k, v)]

/-- Characters Anthropic allows in tool names (`[a-zA-Z0-9_-]`). -/
def isAllowedToolChar (c : Char) : Bool :=
  ('a' ≤ c && c ≤ 'z') || ('A' ≤ c && c ≤ 'Z') || ('0' ≤ c && c ≤ '9') ||
    c == '_' || c == '-'

/-- Anthropic-safe tool name (`callLLM`): default empty names to
`'tool'`, replace disallowed characters by `'_'`, truncate to 64, and
fall back to `'tool'` if empty. -/
def anthropicSafeName (name : String) : String :=
  let base := if name = "" then "tool" else name
  let replaced := String.mk
    (base.toList.map (fun c => if isAllowedToolChar c then c else '_'))
  let sliced := String.mk (replaced.toList.take 64)
  if sliced = "" then "tool" else sliced

/-- The `anthropicToolNameMapRef` contents after `callLLM` rebuilt it:
safe name mapped to original MCP name, in tool-list order. -/
def buildAnthropicToolNameMap (tools : List String) : List (String × String) :=
  tools.foldl (fun m t => mapSet m (anthropicSafeName t) t) []

/-- The name actually sent to the gateway: for Anthropic, map the safe
name back to the original (`if (mapped) execName = mapped` — a falsy
mapped value is ignored). -/
def gatewayName (provider : Provider) (nameMap : List (String × String))
    (name : String) : String :=
  match provider with
  | .openai => name
  | .anthropic =>
      match mapGet nameMap name with
      | some m => if m ≠ "" then m else name
      | none => name

/-- The `sessionId` state cell after one gateway call: the guard
`if (!sessionId && result)` reads the render-frozen closure value, so
on a successful truthy result with a falsy `frozen` the extraction
runs and a truthy extracted value is written over the pending cell
(`if (extractedSessionId) setSessionId(...)`); otherwise the cell is
unchanged. -/
def stepSession (frozen pending : Option Json) (outcome : CallOutcome) :
    Option Json :=
  match outcome with
  | .ok result =>
      if !sessTruthy frozen && jtruthy result then
        match extractSessionId result with
        | some v => if jtruthy v then some v else pending
        | none => pending
      else pending
  | .err _ => pending

/-- Exit mode of one loop iteration: `abortedExit` models the early
`return` on an observed abort flag. -/
inductive StepExit where
  | normal
  | abortedExit
deriving DecidableEq, Repr

/-- Result of one loop iteration. -/
structure StepOut where
  record : TCState
  st : OrchState
  events : List ExecEv
  exit : StepExit

/-- One iteration of the `for (const tc of toolCalls)` loop: abort
pre-check, status updates, safe-name mapping, session injection, the
gateway call, abort post-check, session extraction, result processing
— or the error path on a rejected call.  Both session reads
(injection at `if (sessionId && !toolArgs.session_id)` and the
extraction guard) see the render-frozen `frozen`, never the pending
cell `st.session` written earlier in the same run. -/
def execStep (provider : Provider) (nameMap : List (String × String))
    (frozen : Option Json) (outcome : CallOutcome) (abortDuring : Bool)
    (st : OrchState) (tc : MToolCall) : StepOut :=
  if st.aborted then
    ⟨⟨tc, .paused, none, none⟩, st, [.forceUi], .abortedExit⟩
  else
    let execName := gatewayName provider nameMap tc.name
    let toolArgs := injectSessionId frozen tc.args
    let evs0 : List ExecEv :=
      [.setActive (some tc.id), .uiStatus tc.id .pending] ++
        (if injectionHappens frozen tc.args then
          [.logMsg "Auto-injecting session_id"] else []) ++
        [.callTool execName toolArgs]
    match outcome with
    | .ok result =>
        if abortDuring then
          ⟨⟨tc, .paused, none, none⟩, ⟨st.session, true⟩,
            evs0 ++ [.forceUi], .abortedExit⟩
        else
          ⟨⟨tc, .success, some (processToolResult result), none⟩,
            ⟨stepSession frozen st.session (CallOutcome.ok result), false⟩,
            evs0 ++ [.uiStatus tc.id .success, .logMsg "Tool executed"], .normal⟩
    | .err msg =>
        ⟨⟨tc, .error, none, some msg⟩, ⟨st.session, abortDuring⟩,
          evs0 ++ [.uiStatus tc.id .error, .logMsg "Tool failed"], .normal⟩

/-- Result of the whole loop over a batch. -/
structure LoopOut where
  tcs : List TCState
  st : OrchState
  events : List ExecEv
  exited : Bool

/-- The sequential loop itself, `i` the position in the batch.  An
`abortedExit` returns immediately; the unprocessed calls keep their
initial pending state.  Every iteration reads the same render-frozen
`frozen`; only the pending cell and the abort flag thread through. -/
def execLoop (provider : Provider) (nameMap : List (String × String))
    (frozen : Option Json) (env : ExecEnv) (i : Nat) (st : OrchState) :
    List MToolCall → LoopOut
  | [] => ⟨[], st, [], false⟩
  | tc :: rest =>
      let so := execStep provider nameMap frozen (env.outcome i)
        (env.abortDuring i) st tc
      match so.exit with
      | .abortedExit =>
          ⟨so.record :: rest.map (fun t => ⟨t, .pending, none, none⟩),
            so.st, so.events, true⟩
      | .normal =>
          let r := execLoop provider nameMap frozen env (i + 1) so.st rest
          ⟨so.record :: r.tcs, r.st, so.events ++ r.events, r.exited⟩

/-- Provider-native history message records. -/
inductive PMsg where
  | system (content : String)
  | userText (content : String)
  | assistantText (content : String)
  | assistantToolCalls (tcs : List AccRecord)
  | toolResult (tcId : String) (content : String)
  | userToolResults (results : List (String × String))
deriving DecidableEq, Repr

/-- Result of `executeToolCalls`: the final call records, the effect
trace, the history messages appended after the loop, the final
session/abort state, and whether the trailing `await callLLM()` ran. -/
structure ExecOut where
  tcs : List TCState
  events : List ExecEv
  history : List PMsg
  finalSession : Option Json
  finalAborted : Bool
  ranLLM : Bool

/-- The whole of `executeToolCalls`: run the loop; on an abort exit
return straight away (no history appends, no follow-up model call);
otherwise append the provider-shaped tool results — one `role:'tool'`
message per call for OpenAI, a single batched user message for
Anthropic — clear the active-call marker, and re-invoke the model. -/
def executeToolCalls (provider : Provider) (nameMap : List (String × String))
    (frozen : Option Json) (env : ExecEnv) (st : OrchState)
    (toolCalls : List MToolCall) : ExecOut :=
  let lo := execLoop provider nameMap frozen env 0 st toolCalls
  if lo.exited then
    ⟨lo.tcs, lo.events, [], lo.st.session, lo.st.aborted, false⟩
  else
    let contentOf := fun (t : TCState) => t.result.getD (t.errMsg.getD "")
    let history := match provider with
      | .openai => lo.tcs.map (fun t => PMsg.toolResult t.tc.id (contentOf t))
      | .anthropic =>
          if lo.tcs.isEmpty then []
          else [PMsg.userToolResults (lo.tcs.map (fun t => (t.tc.id, contentOf t)))]
    ⟨lo.tcs, lo.events ++ [.setActive none], history,
      lo.st.session, lo.st.aborted, true⟩

/-! ## OpenAI streaming turn (`callLLM` / `handleStreamingResponse`)

Embedding of one OpenAI streamed model turn at the granularity the
error-handling claims need: decoded events update the streamed text and
the tool-call accumulator; complete tool batches push the assistant
tool-call intent into the history and are recorded (their execution and
the recursive `callLLM` continuation are outside this one-turn model);
after the read loop — whether it ended normally or by a mid-stream
error — the streaming UI entry is finalized and any non-whitespace
accumulated text is pushed to the provider history. -/

/-- One UI transcript entry (the fields the model tracks). -/
structure UiMsg where
  id : String
  role : String
  content : String
  streaming : Bool
  toolCalls : List MToolCall

/-- The per-stream mutable state of `handleStreamingResponse`. -/
structure StreamState where
  messageCreated : Bool
  fullText : String
  acc : List (Nat × AccRecord)
  ui : List UiMsg
  history : List PMsg
  batches : List (List MToolCall)

/-- Placeholder for the random streaming message id. -/
def streamingIdM : String := "stream-id"

/-- Initial stream state over the UI transcript as it was when the
turn began. -/
def initStreamState (ui0 : List UiMsg) : StreamState :=
  ⟨false, "", [], ui0, [], []⟩

/-- Convert one element of `delta.tool_calls` to a delta record
(string fields are kept when they are strings, JavaScript would coerce
other types; `index` must be a number). -/
def toOAIDelta (j : Json) : OAIDelta :=
  { index := match j.getField "index" with
      | some (.jnum n) => n.toNat
      | _ => 0
    id := match j.getField "id" with
      | some (.jstr s) => some s
      | _ => none
    jstype := match j.getField "type" with
      | some (.jstr s) => some s
      | _ => none
    fname := match jfield (j.getField "function") "name" with
      | some (.jstr s) => some s
      | _ => none
    fargs := match jfield (j.getField "function") "arguments" with
      | some (.jstr s) => some s
      | _ => none }

/-- Create-or-update of the streaming UI entry on a text delta. -/
def uiTextUpdate (st : StreamState) (newText : String) : StreamState :=
  if !st.messageCreated then
    { st with
      messageCreated := true
      fullText := newText
      ui := st.ui ++ [⟨streamingIdM, "assistant", newText, true, []⟩] }
  else
    { st with
      fullText := newText
      ui := st.ui.map (fun m =>
        if m.id == streamingIdM then { m with content := newText } else m) }

/-- UI update when a complete tool batch appears:
`appendAssistantMessage` if no streaming entry exists yet, otherwise
attach the calls to the streaming entry and stop its streaming flag. -/
def uiToolUpdate (st : StreamState) (calls : List MToolCall) : StreamState :=
  if !st.messageCreated then
    { st with
      messageCreated := true
      ui := st.ui ++ [⟨"appended", "assistant", st.fullText, false, calls⟩] }
  else
    { st with
      ui := st.ui.map (fun m =>
        if m.id == streamingIdM then
          { m with toolCalls := calls, streaming := false }
        else m) }

/-- The `if (deltaTxt)` statement of the event handler: a truthy
`choices[0].delta.content` extends the streamed text. -/
def handleDeltaText (st : StreamState) (deltaTxt : Option Json) : StreamState :=
  if jtruthyOpt deltaTxt then
    uiTextUpdate st (st.fullText ++ jsCoerceStr (deltaTxt.getD Json.jnull))
  else st

/-- The `if (Array.isArray(deltaToolCalls))` statement of the event
handler: the array feeds the accumulator, and when records complete the
assistant tool-call intent is pushed and the batch recorded, text and
accumulator reset. -/
def handleToolField (st1 : StreamState) (tc : Option Json) : StreamState :=
  match tc with
  | some (.jarr items) =>
      let p := oaiAccumStep st1.acc (items.map toOAIDelta)
      if p.2.isEmpty then { st1 with acc := p.1 }
      else
        let calls := p.2.map recToCall
        let st2 := { st1 with
          history := st1.history ++ [PMsg.assistantToolCalls p.2] }
        let st3 := uiToolUpdate st2 calls
        { st3 with
          acc := p.1
          batches := st3.batches ++ [calls]
          fullText := "" }
  | _ => st1

/-- Handle one decoded OpenAI SSE event: a payload that fails
`JSON.parse` is skipped; then the text-delta statement and the
tool-call statement run in order. -/
def handleOAIEvent (st : StreamState) (ev : SSEEvent) : StreamState :=
  match jparse ev.payload with
  | none => st
  | some parsed =>
      let delta := jfield (jidx ((Json.getField parsed "choices")) 0) "delta"
      handleToolField (handleDeltaText st (jfield delta "content"))
        (jfield delta "tool_calls")

/-- Result of one `callLLM` turn. -/
structure CallOut where
  historyAppends : List PMsg
  errorSurfaced : Bool
  uiFinal : List UiMsg
  batches : List (List MToolCall)

/-- The tail of `handleStreamingResponse`: on a mid-stream error the
streaming entry is removed and a toast surfaced; in all cases the
streaming entry is finalized and non-whitespace accumulated text is
pushed to the provider history. -/
def finishOpenAIStream (st : StreamState) (midErr : Bool) : CallOut :=
  let ui1 := if midErr then st.ui.filter (fun m => m.id ≠ streamingIdM) else st.ui
  let ui2 := ui1.map (fun m =>
    if m.id == streamingIdM then { m with streaming := false } else m)
  let hist := st.history ++
    (if jsTrim st.fullText.toList ≠ [] then [PMsg.assistantText st.fullText]
     else [])
  ⟨hist, midErr, ui2, st.batches⟩

/-- Run one OpenAI streamed response over an already-decoded event
sequence. -/
def runOpenAIStream (ui0 : List UiMsg) (events : List SSEEvent) (midErr : Bool) :
    CallOut :=
  finishOpenAIStream (events.foldl handleOAIEvent (initStreamState ui0)) midErr

/-- How one model call went: pre-stream HTTP error (`!resp.ok`), fetch
rejection, or a streamed body — possibly interrupted by a mid-stream
read error after the given chunks arrived. -/
inductive LLMOutcome where
  | httpErr
  | fetchErr
  | streamed (chunks : List (List Char)) (midErr : Bool)

/-- One OpenAI `callLLM` turn: pre-stream failures are caught in
`callLLM` (toast, log; no history change); a streamed body is decoded
by the SSE layer and handled event by event. -/
def callLLMOpenAI (ui0 : List UiMsg) (outcome : LLMOutcome) : CallOut :=
  match outcome with
  | .httpErr => ⟨[], true, ui0, []⟩
  | .fetchErr => ⟨[], true, ui0, []⟩
  | .streamed chunks midErr =>
      runOpenAIStream ui0 (feedAll initDecState chunks).events midErr

/-! ## Provider-history operations (mutations of `providerMessagesRef`)

The operations the component performs on the OpenAI-shaped
conversation history within one conversation: the initial system
message, the in-place system-prompt refresh when the tool list changes,
and the appends of user / assistant / tool-result messages.
(`New Chat` re-roots the history to a fresh `[system]` and is the start
of a new conversation, outside these ops.) -/

/-- One history-affecting operation. -/
inductive HistOp where
  | refreshSystem (newPrompt : String)
  | pushUser (content : String)
  | pushAssistantText (content : String)
  | pushAssistantToolCalls (tcs : List AccRecord)
  | pushToolResult (tcId : String) (content : String)
deriving DecidableEq, Repr

/-- Recognize the in-place system-prompt refresh. -/
def isRefreshOp : HistOp → Bool
  | .refreshSystem _ => true
  | _ => false

/-- Apply one operation, exactly as the source does: the refresh
overwrites `providerMessages[0].content` in place when the head is a
system message; all other operations push. -/
def applyHistOp (h : List PMsg) (op : HistOp) : List PMsg :=
  match op with
  | .refreshSystem p =>
      match h with
      | PMsg.system _ :: t => PMsg.system p :: t
      | _ => h
  | .pushUser c => h ++ [PMsg.userText c]
  | .pushAssistantText c => h ++ [PMsg.assistantText c]
  | .pushAssistantToolCalls tcs => h ++ [PMsg.assistantToolCalls tcs]
  | .pushToolResult tcId c => h ++ [PMsg.toolResult tcId c]

/-- The init effect's OpenAI history: the hidden system prompt. -/
def initOpenAIHistory (prompt0 : String) : List PMsg := [PMsg.system prompt0]

/-- The history after a sequence of operations in one conversation. -/
def runHistOps (prompt0 : String) (ops : List HistOp) : List PMsg :=
  ops.foldl applyHistOp (initOpenAIHistory prompt0)

/-- A step only appended: the old history is a prefix of the new one. -/
def isAppendOnlyStep (before after : List PMsg) : Prop :=
  after.take before.length = before

/-- Head-is-system invariant. -/
def headIsSystem (h : List PMsg) : Prop :=
  match h with
  | PMsg.system _ :: _ => True
  | _ => False

/-! ## Spec-side definitions

Definitions written from the words of the claims (not from the source),
for the refinement comparisons. -/

/-- A truthy field lookup, shared by the search specifications. -/
def truthyField (j : Json) (k : String) : Option Json :=
  match j.getField k with
  | some v => if jtruthy v then some v else none
  | none => none

/-- Truthy `session_id` embedded as JSON text in an item's `text`
string. -/
def embeddedSession (item : Json) : Option Json :=
  match item.getField "text" with
  | some (.jstr s) =>
      if s ≠ "" then (jparse s).bind (fun p => truthyField p "session_id")
      else none
  | _ => none

/-- Per-item search: the object field first, then the embedded JSON —
the amended per-element order. -/
def itemSession (item : Json) : Option Json :=
  match truthyField item "session_id" with
  | some v => some v
  | none => embeddedSession item

/-- Amended search order (matching the source): scan the `content`
array item by item checking field-then-embedded per item, else a direct
object field, else a JSON-embedded string, else the top-level field. -/
def sessionSearchAmended (result : Json) : Option Json :=
  let fromContent : Option Json :=
    match result.getField "content" with
    | some content =>
        if jtruthy content then
          match content with
          | .jarr items => items.findSome? itemSession
          | .jstr s => (jparse s).bind (fun p => truthyField p "session_id")
          | _ => truthyField content "session_id"
        else none
    | none => none
  match fromContent with
  | some v => some v
  | none => truthyField result "session_id"

/-- The claim's literal search order: pass (a) over all array elements
for an object field, THEN pass (b) over all array elements for embedded
JSON, then (c) direct object field, (d) JSON-embedded string content,
(e) top-level field. -/
def sessionSearchTwoPassSpec (result : Json) : Option Json :=
  let passA : Option Json :=
    match result.getField "content" with
    | some (.jarr items) => items.findSome? (fun item => truthyField item "session_id")
    | _ => none
  let passB : Option Json :=
    match result.getField "content" with
    | some (.jarr items) => items.findSome? embeddedSession
    | _ => none
  let passC : Option Json :=
    match result.getField "content" with
    | some (.jobj fs) => truthyField (Json.jobj fs) "session_id"
    | _ => none
  let passD : Option Json :=
    match result.getField "content" with
    | some (.jstr s) => (jparse s).bind (fun p => truthyField p "session_id")
    | _ => none
  ((((passA).orElse (fun _ => passB)).orElse (fun _ => passC)).orElse
    (fun _ => passD)).orElse (fun _ => truthyField result "session_id")

/-- Name carried by a tool-invocation event. -/
def callEvName : ExecEv → String
  | .callTool n _ => n
  | _ => ""

/-- The record one loop iteration produces for its call when no abort
is observed: success with the processed result, or error with the
rejection message. -/
def stepRecord (outcome : CallOutcome) (tc : MToolCall) : TCState :=
  match outcome with
  | .ok result => ⟨tc, .success, some (processToolResult result), none⟩
  | .err msg => ⟨tc, .error, none, some msg⟩

/-- Concatenation of argument fragments. -/
def joinFrags : List String → String
  | [] => ""
  | f :: fs => f ++ joinFrags fs

/-- A concrete streamed chunk carrying only the text delta "Hel". -/
def c6Chunk : List Char :=
  "data: \x7b\"choices\":[\x7b\"delta\":\x7b\"content\":\"Hel\"\x7d\x7d]\x7d\n\n".toList

/-- The SSE payload decoded from `c6Chunk`. -/
def c6Payload : String :=
  "\x7b\"choices\":[\x7b\"delta\":\x7b\"content\":\"Hel\"\x7d\x7d]\x7d"

/-! ## Lemmas: boundary search under appends -/

/-- A prefix match survives appending on the right. -/
theorem listStartsWith_append (pat s c : List Char)
    (h : listStartsWith pat s = true) : listStartsWith pat (s ++ c) = true := by
  induction pat generalizing s with
  | nil => simp [listStartsWith]
  | cons p ps ih =>
    cases s with
    | nil => simp [listStartsWith] at h
    | cons a s' =>
      simp only [listStartsWith, Bool.and_eq_true] at h ⊢
      exact ⟨h.1, ih s' h.2⟩

/-- If a pattern matches only after appending, the original string was
a proper prefix of the pattern. -/
theorem listStartsWith_junction (pat s c : List Char)
    (h : listStartsWith pat (s ++ c) = true)
    (h2 : listStartsWith pat s = false) :
    s.length < pat.length ∧ listStartsWith s pat = true := by
  induction s generalizing pat with
  | nil =>
    cases pat with
    | nil => simp [listStartsWith] at h2
    | cons p ps => exact ⟨by simp, by simp [listStartsWith]⟩
  | cons a s' ih =>
    cases pat with
    | nil => simp [listStartsWith] at h2
    | cons p ps =>
      simp only [List.cons_append, listStartsWith, Bool.and_eq_true] at h
      simp only [listStartsWith] at h2
      have hpa : (p == a) = true := h.1
      have h2' : listStartsWith ps s' = false := by
        cases hps : listStartsWith ps s' with
        | false => rfl
        | true => rw [hpa, hps] at h2; simp at h2
      obtain ⟨hl, hp⟩ := ih ps h.2 h2'
      refine ⟨Nat.succ_lt_succ hl, ?_⟩
      simp only [listStartsWith, Bool.and_eq_true]
      rw [beq_iff_eq] at hpa
      exact ⟨by rw [beq_iff_eq]; exact hpa.symm, hp⟩

/-- A scanner hit fits inside the string and has length 2 or 4. -/
theorem findBoundaryScan_bound (s : List Char) (i n : Nat)
    (h : findBoundaryScan s = some (i, n)) :
    i + n ≤ s.length ∧ (n = 2 ∨ n = 4) := by
  induction s generalizing i with
  | nil => simp [findBoundaryScan] at h
  | cons a rest ih =>
    simp only [findBoundaryScan] at h
    by_cases hc : listStartsWith crlfPat (a :: rest) = true
    · rw [if_pos hc] at h
      simp only [Option.some.injEq, Prod.mk.injEq] at h
      obtain ⟨rfl, rfl⟩ := h
      have := listStartsWith_le crlfPat (a :: rest) hc
      simp [crlfPat] at this
      refine ⟨by simpa using this, Or.inr rfl⟩
    · rw [if_neg hc] at h
      by_cases hl : listStartsWith lflfPat (a :: rest) = true
      · rw [if_pos hl] at h
        simp only [Option.some.injEq, Prod.mk.injEq] at h
        obtain ⟨rfl, rfl⟩ := h
        have := listStartsWith_le lflfPat (a :: rest) hl
        simp [lflfPat] at this
        refine ⟨by simpa using this, Or.inl rfl⟩
      · rw [if_neg hl] at h
        cases hr : findBoundaryScan rest with
        | none => rw [hr] at h; cases h
        | some p =>
          rw [hr] at h
          simp only [Option.map_some', Option.some.injEq] at h
          obtain ⟨rfl⟩ := h
          obtain ⟨b1, b2⟩ := ih p.1 hr
          exact ⟨by simp; omega, b2⟩

/-- A hit at position zero is one of the two patterns, CRLFCRLF
preferred. -/
theorem findBoundaryScan_zero (s : List Char) (n : Nat)
    (h : findBoundaryScan s = some (0, n)) :
    (n = 4 ∧ listStartsWith crlfPat s = true) ∨
      (n = 2 ∧ listStartsWith lflfPat s = true ∧
        listStartsWith crlfPat s = false) := by
  cases s with
  | nil => simp [findBoundaryScan] at h
  | cons a rest =>
    simp only [findBoundaryScan] at h
    by_cases hc : listStartsWith crlfPat (a :: rest) = true
    · rw [if_pos hc] at h
      simp only [Option.some.injEq, Prod.mk.injEq] at h
      exact Or.inl ⟨h.2.symm, hc⟩
    · rw [if_neg hc] at h
      by_cases hl : listStartsWith lflfPat (a :: rest) = true
      · rw [if_pos hl] at h
        simp only [Option.some.injEq, Prod.mk.injEq] at h
        exact Or.inr ⟨h.2.symm, hl, by simpa using hc⟩
      · rw [if_neg hl] at h
        cases hr : findBoundaryScan rest with
        | none => rw [hr] at h; cases h
        | some p => rw [hr] at h; simp at h

/-- The earliest boundary is stable under appending more stream data:
appending can neither move nor retype the first hit. -/
theorem findBoundaryScan_append (s c : List Char) (i n : Nat)
    (h : findBoundaryScan s = some (i, n)) :
    findBoundaryScan (s ++ c) = some (i, n) := by
  induction s generalizing i with
  | nil => simp [findBoundaryScan] at h
  | cons a rest ih =>
    simp only [findBoundaryScan] at h
    by_cases hc : listStartsWith crlfPat (a :: rest) = true
    · rw [if_pos hc] at h
      have hc' := listStartsWith_append crlfPat (a :: rest) c hc
      simp only [List.cons_append] at hc' ⊢
      simp only [findBoundaryScan, hc', if_true]
      exact h
    · rw [if_neg hc] at h
      by_cases hl : listStartsWith lflfPat (a :: rest) = true
      · rw [if_pos hl] at h
        have hl' := listStartsWith_append lflfPat (a :: rest) c hl
        have hcf : listStartsWith crlfPat ((a :: rest) ++ c) = false := by
          cases hcc : listStartsWith crlfPat ((a :: rest) ++ c) with
          | false => rfl
          | true =>
            obtain ⟨_, hpre⟩ := listStartsWith_junction crlfPat (a :: rest) c hcc
              (by simpa using hc)
            simp [lflfPat, listStartsWith] at hl
            simp [crlfPat, listStartsWith] at hpre
            have hne : ('\n' : Char) = '\r' := hl.1.trans hpre.1
            simp at hne
        simp only [List.cons_append] at hcf hl' ⊢
        simp only [findBoundaryScan, hcf, Bool.false_eq_true, if_false, hl', if_true]
        exact h
      · rw [if_neg hl] at h
        cases hr : findBoundaryScan rest with
        | none => rw [hr] at h; cases h
        | some p =>
          rw [hr] at h
          simp only [Option.map_some', Option.some.injEq, Prod.mk.injEq] at h
          obtain ⟨hi, hn⟩ := h
          obtain ⟨b1, b2⟩ := findBoundaryScan_bound rest p.1 p.2 (by rw [hr])
          have hcf : listStartsWith crlfPat ((a :: rest) ++ c) = false := by
            cases hcc : listStartsWith crlfPat ((a :: rest) ++ c) with
            | false => rfl
            | true =>
              obtain ⟨hlen, hpre⟩ := listStartsWith_junction crlfPat (a :: rest) c hcc
                (by simpa using hc)
              simp only [crlfPat, List.length_cons, List.length] at hlen
              have hr2 : rest.length = 2 := by omega
              have hp0 : p.1 = 0 := by omega
              have hp2 : p.2 = 2 := by
                rcases b2 with h2 | h4
                · exact h2
                · omega
              obtain ⟨r1, r2, rfl⟩ := List.length_eq_two.mp hr2
              have hz := findBoundaryScan_zero [r1, r2] p.2
                (by rw [hr, ← hp0])
              rcases hz with ⟨h4, _⟩ | ⟨_, hlf, _⟩
              · omega
              · simp [lflfPat, listStartsWith] at hlf
                simp [crlfPat, listStartsWith] at hpre
                have hne : ('\n' : Char) = '\r' := hlf.2.trans hpre.2.2
                simp at hne
          have hlf : listStartsWith lflfPat ((a :: rest) ++ c) = false := by
            cases hll : listStartsWith lflfPat ((a :: rest) ++ c) with
            | false => rfl
            | true =>
              obtain ⟨hlen, _⟩ := listStartsWith_junction lflfPat (a :: rest) c hll
                (by simpa using hl)
              simp only [lflfPat, List.length_cons, List.length] at hlen
              have hz : rest.length = 0 := by omega
              have hz2 : rest = [] := List.length_eq_zero.mp hz
              rw [hz2] at hr
              simp [findBoundaryScan] at hr
          simp only [List.cons_append] at hcf hlf ⊢
          simp only [findBoundaryScan, hcf, Bool.false_eq_true, if_false, hlf]
          have hrn : findBoundaryScan rest = some (p.1, n) := by rw [hr, ← hn]
          rw [ih p.1 hrn]
          simp [hi]

/-- Shift form of `findBoundary` on a cons when neither pattern matches
at the head. -/
theorem findBoundary_cons_shift (a : Char) (rest : List Char)
    (hc : listStartsWith crlfPat (a :: rest) = false)
    (hl : listStartsWith lflfPat (a :: rest) = false) :
    findBoundary (a :: rest) = (findBoundary rest).map (fun p => (p.1 + 1, p.2)) := by
  unfold findBoundary
  simp only [firstMatch, hc, Bool.false_eq_true, if_false, hl]
  cases hfc : firstMatch crlfPat rest with
  | none =>
    cases hfl : firstMatch lflfPat rest with
    | none => simp
    | some l => simp
  | some cc =>
    cases hfl : firstMatch lflfPat rest with
    | none => simp
    | some l =>
      simp only [Option.map_some']
      by_cases hcl : cc < l
      · rw [if_pos hcl, if_pos (by omega)]
        simp
      · rw [if_neg hcl, if_neg (by omega)]
        simp

/-- The source's two-`indexOf` boundary selection equals the one-pass
scanner. -/
theorem findBoundary_eq_scan (s : List Char) :
    findBoundary s = findBoundaryScan s := by
  induction s with
  | nil => rfl
  | cons a rest ih =>
    by_cases hc : listStartsWith crlfPat (a :: rest) = true
    · have hlf : listStartsWith lflfPat (a :: rest) = false := by
        cases hll : listStartsWith lflfPat (a :: rest) with
        | false => rfl
        | true =>
          simp [crlfPat, listStartsWith] at hc
          simp [lflfPat, listStartsWith] at hll
          have hne : ('\n' : Char) = '\r' := hll.1.trans hc.1.symm
          simp at hne
      unfold findBoundary
      simp only [firstMatch, hc, if_true, hlf, Bool.false_eq_true, if_false]
      cases hfl : firstMatch lflfPat rest with
      | none =>
        simp [findBoundaryScan, hc]
      | some l =>
        simp only [Option.map_some']
        rw [if_pos (by omega)]
        simp [findBoundaryScan, hc]
    · by_cases hl : listStartsWith lflfPat (a :: rest) = true
      · unfold findBoundary
        simp only [firstMatch, hc, Bool.false_eq_true, if_false, hl, if_true]
        cases hfc : firstMatch crlfPat rest with
        | none =>
          simp [findBoundaryScan, hc, hl]
        | some cc =>
          simp only [Option.map_some']
          rw [if_neg (by omega)]
          simp [findBoundaryScan, hc, hl]
      · rw [findBoundary_cons_shift a rest (by simpa using hc) (by simpa using hl)]
        rw [ih]
        simp only [findBoundaryScan]
        rw [if_neg hc, if_neg hl]

/-- Unfolding: no boundary, no event. -/
theorem drain_of_none (b : List Char) (h : findBoundary b = none) :
    drain b = ([], b, false) := by
  rw [drain]
  split
  · rfl
  · simp_all

/-- Unfolding: one boundary step. -/
theorem drain_of_some (b : List Char) (i n : Nat)
    (h : findBoundary b = some (i, n)) :
    drain b =
      (if (parseBlock (b.take i)).2 = "" then drain (b.drop (i + n))
       else if (parseBlock (b.take i)).2 = "[DONE]" then ([], b.drop (i + n), true)
       else ((⟨(parseBlock (b.take i)).1, (parseBlock (b.take i)).2⟩ : SSEEvent) ::
               (drain (b.drop (i + n))).1,
             (drain (b.drop (i + n))).2.1, (drain (b.drop (i + n))).2.2)) := by
  rw [drain]
  split
  · simp_all
  · rename_i i' n' h'
    rw [h'] at h
    simp only [Option.some.injEq, Prod.mk.injEq] at h
    obtain ⟨rfl, rfl⟩ := h
    rfl

/-- Boundary persistence in the source's formulation. -/
theorem findBoundary_append (b c : List Char) (i n : Nat)
    (h : findBoundary b = some (i, n)) :
    findBoundary (b ++ c) = some (i, n) := by
  rw [findBoundary_eq_scan] at h ⊢
  exact findBoundaryScan_append b c i n h

/-- Draining composes over appends: events already extracted from a
buffer are unchanged by later data; a `[DONE]` exit is final; an
un-terminated drain leaves a boundary-free remainder. -/
theorem drain_append_main : ∀ (N : Nat) (b : List Char), b.length ≤ N → ∀ c,
    ((drain b).2.2 = true →
      drain (b ++ c) = ((drain b).1, (drain b).2.1 ++ c, true)) ∧
    ((drain b).2.2 = false →
      drain (b ++ c) = ((drain b).1 ++ (drain ((drain b).2.1 ++ c)).1,
        (drain ((drain b).2.1 ++ c)).2.1, (drain ((drain b).2.1 ++ c)).2.2) ∧
      findBoundary (drain b).2.1 = none) := by
  intro N
  induction N with
  | zero =>
    intro b hb c
    have hnil : b = [] := List.length_eq_zero.mp (Nat.le_zero.mp hb)
    subst hnil
    have h0 : findBoundary ([] : List Char) = none := rfl
    rw [drain_of_none [] h0]
    exact ⟨(fun h => by simp at h), (fun _ => ⟨by simp, h0⟩)⟩
  | succ N ih =>
    intro b hb c
    cases hfb : findBoundary b with
    | none =>
      rw [drain_of_none b hfb]
      exact ⟨(fun h => by simp at h), (fun _ => ⟨by simp, hfb⟩)⟩
    | some p =>
      obtain ⟨i, n⟩ := p
      obtain ⟨hn, hin⟩ := findBoundary_bound b i n hfb
      have hfb' : findBoundary (b ++ c) = some (i, n) := findBoundary_append b c i n hfb
      have htake : (b ++ c).take i = b.take i :=
        List.take_append_of_le_length (by omega)
      have hdrop : (b ++ c).drop (i + n) = b.drop (i + n) ++ c :=
        List.drop_append_of_le_length hin
      have hrest : (b.drop (i + n)).length ≤ N := by
        simp only [List.length_drop]
        omega
      have IH := ih (b.drop (i + n)) hrest c
      rw [drain_of_some b i n hfb, drain_of_some (b ++ c) i n hfb', htake, hdrop]
      by_cases he : (parseBlock (b.take i)).2 = ""
      · rw [if_pos he, if_pos he]
        exact IH
      · rw [if_neg he, if_neg he]
        by_cases hd : (parseBlock (b.take i)).2 = "[DONE]"
        · rw [if_pos hd, if_pos hd]
          exact ⟨(fun _ => rfl), (fun h => by simp at h)⟩
        · rw [if_neg hd, if_neg hd]
          cases hdone : (drain (b.drop (i + n))).2.2 with
          | true =>
            have h1 := (IH.1) hdone
            rw [h1]
            exact ⟨(fun _ => by simp [hdone]), (fun h => by simp [hdone] at h)⟩
          | false =>
            obtain ⟨h1, h2⟩ := (IH.2) hdone
            rw [h1]
            exact ⟨(fun h => by simp [hdone] at h), (fun _ => ⟨by simp, h2⟩)⟩

/-- Feeding two chunks emits the same events, and the same termination
flag, as feeding their concatenation; the buffers agree whenever the
stream was not terminated. -/
theorem feed_feed (st : DecState) (a b : List Char) :
    (feed (feed st a) b).events = (feed st (a ++ b)).events ∧
    (feed (feed st a) b).done = (feed st (a ++ b)).done ∧
    ((feed st (a ++ b)).done = false →
      (feed (feed st a) b).buffer = (feed st (a ++ b)).buffer) := by
  by_cases hdone : st.done = true
  · simp [feed, hdone]
  · have hdf : st.done = false := by simpa using hdone
    have M := drain_append_main (st.buffer ++ a).length (st.buffer ++ a) (le_refl _) b
    cases hD : (drain (st.buffer ++ a)).2.2 with
    | true =>
      have h1 := M.1 hD
      simp only [feed, hdf, Bool.false_eq_true, if_false, hD, if_true,
        List.append_assoc] at *
      rw [h1]
      simp [hD]
    | false =>
      obtain ⟨h1, _⟩ := M.2 hD
      simp only [feed, hdf, Bool.false_eq_true, if_false, hD,
        List.append_assoc] at *
      rw [h1]
      simp

/-- Generalized chunk invariance: from any state whose pending buffer
is fully drained (or terminated), feeding a chunk list emits the same
events as feeding the single joined chunk. -/
theorem feedAll_eq_feed_join (cs : List (List Char)) :
    ∀ st : DecState, (st.done = true ∨ findBoundary st.buffer = none) →
    (feedAll st cs).events = (feed st cs.flatten).events ∧
    (feedAll st cs).done = (feed st cs.flatten).done ∧
    ((feed st cs.flatten).done = false →
      (feedAll st cs).buffer = (feed st cs.flatten).buffer) := by
  induction cs with
  | nil =>
    intro st hinv
    rcases hinv with hd | hb
    · simp [feedAll, feed, hd]
    · simp only [feedAll, List.flatten]
      by_cases hdone : st.done = true
      · simp [feed, hdone]
      · have hdf : st.done = false := by simpa using hdone
        simp [feed, hdf, drain_of_none _ (by simpa using hb)]
  | cons c cs ih =>
    intro st hinv
    have hinv' : (feed st c).done = true ∨ findBoundary (feed st c).buffer = none := by
      by_cases hdone : st.done = true
      · left
        simp [feed, hdone]
      · have hdf : st.done = false := by simpa using hdone
        cases hD : (drain (st.buffer ++ c)).2.2 with
        | true => left; simp [feed, hdf, hD]
        | false =>
          right
          have M := drain_append_main (st.buffer ++ c).length (st.buffer ++ c)
            (le_refl _) []
          obtain ⟨_, h2⟩ := M.2 hD
          simp [feed, hdf, hD, h2]
    have IH := ih (feed st c) hinv'
    have FF := feed_feed st c cs.flatten
    simp only [feedAll, List.flatten]
    refine ⟨IH.1.trans FF.1, IH.2.1.trans FF.2.1, ?_⟩
    intro hjd
    have hjd' : (feed (feed st c) cs.flatten).done = false := by
      rw [FF.2.1]; exact hjd
    exact (IH.2.2 hjd').trans (FF.2.2 hjd)

/-- C2 (claim): for every SSE byte stream and every way of splitting it
into chunks, the stream decoder of `handleStreamingResponse` produces
the same ordered sequence of event tuples: decoding is invariant under
chunk boundaries. -/
theorem sse_decode_chunk_invariance (chunks : List (List Char)) :
    (feedAll initDecState chunks).events =
      (feedAll initDecState [chunks.flatten]).events := by
  have h := feedAll_eq_feed_join chunks initDecState (Or.inr rfl)
  have : feedAll initDecState [chunks.flatten] = feed initDecState chunks.flatten := rfl
  rw [this]
  exact h.1

/-- C7 (claim): whenever a decoded SSE event's data payload is the
literal `[DONE]`, decoding terminates immediately as a clean
end-of-stream — no matter what the current event name is and even if
more bytes remain buffered (they are dropped un-processed) — and once
terminated, later arriving chunks are not processed at all. -/
theorem done_terminates_decoding (b : List Char) (i n : Nat)
    (h : findBoundary b = some (i, n))
    (hp : (parseBlock (b.take i)).2 = "[DONE]") :
    drain b = ([], b.drop (i + n), true) ∧
      (∀ (st : DecState) (chunk : List Char), st.done = true → feed st chunk = st) := by
  constructor
  · rw [drain_of_some b i n h, hp]
    simp
  · intro st chunk hdone
    simp [feed, hdone]

/-- C7 witness: a concrete buffer whose first event carries `[DONE]`
under an (ignored) event name, with a complete further event pending
behind it. -/
theorem done_terminates_decoding_witness :
    drain ("event: message_stop\ndata: [DONE]\n\ndata: x\n\n".toList) =
      ([], ("event: message_stop\ndata: [DONE]\n\ndata: x\n\n".toList).drop 34, true) :=
  (done_terminates_decoding _ 32 2 (by decide) (by decide)).1

/-! ## Lemmas: the provider-A accumulator -/

/-- An empty string does not parse. -/
theorem jparse_empty : jparse "" = none := rfl

/-- A string that parses is non-empty. -/
theorem jparse_ne_empty (s : String) (v : Json) (h : jparse s = some v) :
    s ≠ "" := by
  intro he
  rw [he, jparse_empty] at h
  cases h

/-- One argument-fragment delta on a single pending record: the
fragment is appended; when the accumulated string still fails to parse,
nothing is emitted. -/
theorem oaiAccumStep_frag_pending (tid tname acc g : String)
    (hparse : jparse (acc ++ g) = none) :
    oaiAccumStep [(0, ⟨tid, "function", tname, acc⟩)]
      [OAIDelta.mk 0 none none none (some g)] =
    ([(0, ⟨tid, "function", tname, acc ++ g⟩)], []) := by
  by_cases hg : g = ""
  · subst hg
    simp only [String.append_empty] at hparse ⊢
    simp [oaiAccumStep, applyOAIDelta, accFind, List.find?, accUpdate,
      completeOf, recComplete, truthyS, hparse]
  · simp [oaiAccumStep, applyOAIDelta, accFind, List.find?, accUpdate,
      completeOf, recComplete, truthyS, hparse, hg]

/-- One argument-fragment delta that makes the accumulated string parse
truthy: the complete record is emitted, the accumulation object is
reset. -/
theorem oaiAccumStep_frag_complete (tid tname acc g : String) (v : Json)
    (hname : tname ≠ "")
    (hparse : jparse (acc ++ g) = some v)
    (htr : jtruthy v = true) :
    oaiAccumStep [(0, ⟨tid, "function", tname, acc⟩)]
      [OAIDelta.mk 0 none none none (some g)] =
    ([], [⟨tid, "function", tname, acc ++ g⟩]) := by
  have hne : acc ++ g ≠ "" := jparse_ne_empty _ v hparse
  by_cases hg : g = ""
  · subst hg
    simp only [String.append_empty] at hparse hne ⊢
    simp [oaiAccumStep, applyOAIDelta, accFind, List.find?, accUpdate,
      completeOf, recComplete, truthyS, hparse, hname, hne, htr]
  · simp [oaiAccumStep, applyOAIDelta, accFind, List.find?, accUpdate,
      completeOf, recComplete, truthyS, hparse, hname, hne, htr, hg]

/-- First delta of a call (carrying id and name): creates the record;
nothing is emitted while the fragment does not parse. -/
theorem oaiAccumStep_first_pending (tid tname f : String)
    (hparse : jparse f = none) :
    oaiAccumStep []
      [OAIDelta.mk 0 (some tid) (some "function") (some tname) (some f)] =
    ([(0, ⟨tid, "function", tname, f⟩)], []) := by
  simp [oaiAccumStep, applyOAIDelta, accFind, List.find?, accInsertNew,
    completeOf, recComplete, truthyS, hparse]

/-- First delta of a call whose whole argument string arrives at once
and parses truthy: the call is emitted immediately. -/
theorem oaiAccumStep_first_complete (tid tname f : String) (v : Json)
    (hname : tname ≠ "")
    (hparse : jparse f = some v)
    (htr : jtruthy v = true) :
    oaiAccumStep []
      [OAIDelta.mk 0 (some tid) (some "function") (some tname) (some f)] =
    ([], [⟨tid, "function", tname, f⟩]) := by
  have hne : f ≠ "" := jparse_ne_empty _ v hparse
  simp [oaiAccumStep, applyOAIDelta, accFind, List.find?, accInsertNew,
    completeOf, recComplete, truthyS, hparse, hname, hne, htr]

/-- Folding the remaining argument fragments of a single call: the
record accumulates fragment by fragment and the call is emitted exactly
once, at the fragment that makes the arguments parse. -/
theorem oai_go (tid tname : String) (v : Json)
    (hname : tname ≠ "") (htr : jtruthy v = true) :
    ∀ (fs : List String) (acc : String) (B : List (List MToolCall)),
    fs ≠ [] →
    jparse (acc ++ joinFrags fs) = some v →
    (∀ k, k < fs.length → jparse (acc ++ joinFrags (fs.take k)) = none) →
    (fs.map (fun g => [OAIDelta.mk 0 none none none (some g)])).foldl
      (fun st ev =>
        let p := oaiAccumStep st.1 ev
        (p.1, st.2 ++ (if p.2.isEmpty then [] else [p.2.map recToCall])))
      ([(0, ⟨tid, "function", tname, acc⟩)], B) =
    ([], B ++ [[⟨tid, tname, v⟩]]) := by
  intro fs
  induction fs with
  | nil => intro acc B hne _ _; exact absurd rfl hne
  | cons g fs' ih =>
    intro acc B _ hfull hpre
    cases fs' with
    | nil =>
      have hp : jparse (acc ++ g) = some v := by
        have he : acc ++ joinFrags [g] = acc ++ g := by
          simp [joinFrags, String.append_empty]
        rwa [he] at hfull
      simp only [List.map_cons, List.map_nil, List.foldl_cons, List.foldl_nil]
      rw [oaiAccumStep_frag_complete tid tname acc g v hname hp htr]
      simp [recToCall, hp]
    | cons g' fs'' =>
      have hp1 : jparse (acc ++ g) = none := by
        have h1 := hpre 1 (by simp)
        have he : acc ++ joinFrags ((g :: g' :: fs'').take 1) = acc ++ g := by
          simp [joinFrags, String.append_empty]
        rwa [he] at h1
      simp only [List.map_cons, List.foldl_cons]
      rw [oaiAccumStep_frag_pending tid tname acc g hp1]
      have hfull' : jparse ((acc ++ g) ++ joinFrags (g' :: fs'')) = some v := by
        rw [String.append_assoc]
        exact hfull
      have hpre' : ∀ k, k < (g' :: fs'').length →
          jparse ((acc ++ g) ++ joinFrags ((g' :: fs'').take k)) = none := by
        intro k hk
        have h2 := hpre (k + 1) (by simpa using Nat.succ_lt_succ hk)
        rw [String.append_assoc]
        simpa [joinFrags] using h2
      have := ih (acc ++ g) B (by simp) hfull' hpre'
      simpa using this

/-- C3 (amended): a single provider-A tool call whose argument string
is split into arbitrary fragments, none of whose strict partial
accumulations parses as JSON, is emitted exactly once with the same
parsed arguments as when the string arrives in one piece.  (The claim's
per-record removal is amended: when any record completes, the source
resets the whole accumulation object, so the invariance is stated for
the single-call stream; the counterexample shows the multi-index
case.) -/
theorem oai_accumulator_split_invariance (tid tname : String)
    (frags : List String) (v : Json)
    (hname : tname ≠ "") (htr : jtruthy v = true)
    (hfull : jparse (joinFrags frags) = some v)
    (hpre : ∀ k, k < frags.length → jparse (joinFrags (frags.take k)) = none) :
    (runOAIDeltas (singleCallScript tid tname frags)).2 =
      [[⟨tid, tname, v⟩]] ∧
    (runOAIDeltas (singleCallScript tid tname [joinFrags frags])).2 =
      [[⟨tid, tname, v⟩]] := by
  constructor
  · cases frags with
    | nil =>
      rw [show joinFrags [] = "" from rfl, jparse_empty] at hfull
      cases hfull
    | cons f fs =>
      simp only [singleCallScript, runOAIDeltas, List.foldl_cons]
      cases fs with
      | nil =>
        have hp : jparse f = some v := by
          have he : joinFrags [f] = f := by simp [joinFrags, String.append_empty]
          rwa [he] at hfull
        rw [oaiAccumStep_first_complete tid tname f v hname hp htr]
        simp [recToCall, hp]
      | cons g fs' =>
        have hp1 : jparse f = none := by
          have h1 := hpre 1 (by simp)
          have he : joinFrags ((f :: g :: fs').take 1) = f := by
            simp [joinFrags, String.append_empty]
          rwa [he] at h1
        rw [oaiAccumStep_first_pending tid tname f hp1]
        have hfull' : jparse (f ++ joinFrags (g :: fs')) = some v := hfull
        have hpre' : ∀ k, k < (g :: fs').length →
            jparse (f ++ joinFrags ((g :: fs').take k)) = none := by
          intro k hk
          have h2 := hpre (k + 1) (by simpa using Nat.succ_lt_succ hk)
          simpa [joinFrags] using h2
        have hgo := oai_go tid tname v hname htr (g :: fs') f [] (by simp) hfull' hpre'
        have hgo2 := congrArg Prod.snd hgo
        simpa using hgo2
  · simp only [singleCallScript, runOAIDeltas, List.foldl_cons]
    rw [oaiAccumStep_first_complete tid tname (joinFrags frags) v hname hfull htr]
    simp [recToCall, hfull]

/-- C3 witness: the argument object `{"a":1}` split as
`{"a"` + `:1}` and in one piece. -/
theorem oai_accumulator_split_invariance_witness :
    (runOAIDeltas (singleCallScript "id1" "f" ["\x7b\"a\"", ":1\x7d"])).2 =
      [[⟨"id1", "f", Json.jobj [("a", Json.jnum 1)]⟩]] ∧
    (runOAIDeltas (singleCallScript "id1" "f"
        [joinFrags ["\x7b\"a\"", ":1\x7d"]])).2 =
      [[⟨"id1", "f", Json.jobj [("a", Json.jnum 1)]⟩]] :=
  oai_accumulator_split_invariance "id1" "f" ["\x7b\"a\"", ":1\x7d"]
    (Json.jobj [("a", Json.jnum 1)]) (by decide) rfl rfl
    (by
      intro k hk
      have hk2 : k < 2 := by simpa using hk
      interval_cases k <;> rfl)

/-- C3 counterexample: in one delta event, index 0 becomes complete
while index 1 is still mid-accumulation (name `g`, fragment `{"b"`).
The source then resets the whole accumulation object, so the pending
record is gone — not "revisited on the next delta" — and after the rest
of its arguments arrives only the index-0 call was ever emitted. -/
theorem oai_accumulator_reset_counterexample :
    accFind (oaiAccumStep []
      [OAIDelta.mk 0 (some "A") (some "function") (some "f") (some "\x7b\"a\":1\x7d"),
       OAIDelta.mk 1 (some "B") (some "function") (some "g") (some "\x7b\"b\"")]).1
      1 = none ∧
    (runOAIDeltas
      [[OAIDelta.mk 0 (some "A") (some "function") (some "f") (some "\x7b\"a\":1\x7d"),
        OAIDelta.mk 1 (some "B") (some "function") (some "g") (some "\x7b\"b\"")],
       [OAIDelta.mk 1 none none none (some ":2\x7d")]]).2.map
        (fun b => b.map (fun c => c.name)) = [["f"]] :=
  ⟨rfl, rfl⟩

/-! ## Lemmas: Anthropic tool-name round trip -/

/-- Entries under other keys do not affect the lookup accumulator. -/
theorem mapGetFold_no_key (k : String) :
    ∀ (l : List (String × String)) (acc : Option String),
      l.any (fun kv => kv.1 == k) = false →
      l.foldl (fun acc kv => if kv.1 == k then some kv.2 else acc) acc = acc := by
  intro l
  induction l with
  | nil => intro acc _; rfl
  | cons kv l' ih =>
    intro acc ha
    simp only [List.any_cons, Bool.or_eq_false_iff] at ha
    simp only [List.foldl_cons, ha.1, Bool.false_eq_true, if_false]
    exact ih acc ha.2

/-- A replacing `Map.set` leaves a key-free list unchanged. -/
theorem mapSet_map_no_key (k v : String) :
    ∀ (l : List (String × String)),
      l.any (fun kv => kv.1 == k) = false →
      l.map (fun kv => if kv.1 == k then (k, v) else kv) = l := by
  intro l
  induction l with
  | nil => intro _; rfl
  | cons kv l' ih =>
    intro h
    simp only [List.any_cons, Bool.or_eq_false_iff] at h
    simp only [List.map_cons, h.1, Bool.false_eq_true, if_false]
    rw [ih h.2]

/-- After a replacing `Map.set`, looking the key up finds the new
value. -/
theorem mapGetFold_replace (k v : String) :
    ∀ (l : List (String × String)) (acc : Option String),
      l.any (fun kv => kv.1 == k) = true →
      (l.map (fun kv => if kv.1 == k then (k, v) else kv)).foldl
        (fun acc kv => if kv.1 == k then some kv.2 else acc) acc = some v := by
  intro l
  induction l with
  | nil => intro acc ha; simp at ha
  | cons kv l' ih =>
    intro acc ha
    simp only [List.any_cons, Bool.or_eq_true] at ha
    by_cases hk : (kv.1 == k) = true
    · simp only [List.map_cons, hk, if_true, List.foldl_cons,
        beq_self_eq_true, if_pos rfl]
      by_cases ha' : l'.any (fun kv => kv.1 == k) = true
      · exact ih (some v) ha'
      · have ha'' : l'.any (fun kv => kv.1 == k) = false := by
          simp only [Bool.not_eq_true] at ha'
          exact ha'
        rw [mapSet_map_no_key k v l' ha'']
        exact mapGetFold_no_key k l' (some v) ha''
    · have hk' : (kv.1 == k) = false := by simpa using hk
      simp only [List.map_cons, hk', Bool.false_eq_true, if_false,
        List.foldl_cons]
      rcases ha with h1 | h2
      · exact absurd h1 hk
      · exact ih acc h2

/-- `Map.get` after `Map.set` of the same key. -/
theorem mapGet_mapSet_same (m : List (String × String)) (k v : String) :
    mapGet (mapSet m k v) k = some v := by
  unfold mapSet mapGet
  by_cases ha : m.any (fun kv => kv.1 == k) = true
  · rw [if_pos ha]
    exact mapGetFold_replace k v m none ha
  · rw [if_neg ha]
    rw [List.foldl_append]
    simp

/-- A replacing `Map.set` does not change lookups of other keys. -/
theorem mapGetFold_map_other (k v k' : String) (hne : (k == k') = false) :
    ∀ (l : List (String × String)) (acc : Option String),
      (l.map (fun kv => if kv.1 == k then (k, v) else kv)).foldl
        (fun acc kv => if kv.1 == k' then some kv.2 else acc) acc =
      l.foldl (fun acc kv => if kv.1 == k' then some kv.2 else acc) acc := by
  intro l
  induction l with
  | nil => intro acc; rfl
  | cons kv l' ih =>
    intro acc
    simp only [List.map_cons, List.foldl_cons]
    by_cases hk : (kv.1 == k) = true
    · rw [if_pos hk]
      have h1 : kv.1 = k := by simpa using hk
      simp only [hne, Bool.false_eq_true, if_false, h1]
      rw [ih acc]
    · rw [if_neg hk]
      rw [ih]

/-- `Map.get` after `Map.set` of a different key. -/
theorem mapGet_mapSet_other (m : List (String × String)) (k v k' : String)
    (hne : (k == k') = false) :
    mapGet (mapSet m k v) k' = mapGet m k' := by
  unfold mapSet mapGet
  by_cases ha : m.any (fun kv => kv.1 == k) = true
  · rw [if_pos ha]
    exact mapGetFold_map_other k v k' hne m none
  · rw [if_neg ha]
    rw [List.foldl_append]
    have hne' : k ≠ k' := by simpa using hne
    simp [hne']

/-- Lookup in the rebuilt name map: under sanitization-injectivity the
safe name of a listed tool maps back to that tool. -/
theorem buildMap_lookup (t : String) :
    ∀ (ts : List String) (m : List (String × String)),
    (∀ u ∈ ts, anthropicSafeName u = anthropicSafeName t → u = t) →
    (t ∈ ts ∨ mapGet m (anthropicSafeName t) = some t) →
    mapGet (ts.foldl (fun m u => mapSet m (anthropicSafeName u) u) m)
      (anthropicSafeName t) = some t := by
  intro ts
  induction ts with
  | nil =>
    intro m _ hd
    rcases hd with h1 | h2
    · cases h1
    · exact h2
  | cons u ts' ih =>
    intro m hinj hd
    simp only [List.foldl_cons]
    by_cases hsu : anthropicSafeName u = anthropicSafeName t
    · have hut : u = t := hinj u (List.mem_cons_self u ts') hsu
      subst hut
      refine ih (mapSet m (anthropicSafeName u) u)
        (fun w hw hs => hinj w (List.mem_cons_of_mem u hw) hs) (Or.inr ?_)
      exact mapGet_mapSet_same m (anthropicSafeName u) u
    · have hne : (anthropicSafeName u == anthropicSafeName t) = false := by
        simpa using hsu
      refine ih (mapSet m (anthropicSafeName u) u)
        (fun w hw hs => hinj w (List.mem_cons_of_mem u hw) hs) ?_
      rcases hd with h1 | h2
      · rcases List.mem_cons.mp h1 with h3 | h4
        · exact absurd (h3 ▸ rfl) hsu
        · exact Or.inl h4
      · exact Or.inr ((mapGet_mapSet_other m _ u _ hne).trans h2)

/-- C10 counterexample: a tool whose MCP name is the empty string does
not collide with anything after sanitization, yet the gateway is
invoked with `tool` (the mapped-back value `''` is falsy and ignored),
not with the tool the model named. -/
theorem anthropic_name_roundtrip_counterexample :
    gatewayName Provider.anthropic (buildAnthropicToolNameMap [""])
      (anthropicSafeName "") ≠ "" := by
  decide

/-- C10 (amended): for provider B every MCP tool name is sanitized
(characters outside `[a-zA-Z0-9_-]` replaced by `_`, truncated to 64,
`tool` fallback) and mapped back before invoking the gateway; whenever
no two tool names collide after sanitization and the named tool's
original name is non-empty, the tool invoked — also inside the
execution loop's trace — is exactly the tool the model named. -/
theorem anthropic_name_roundtrip (ts : List String) (t : String)
    (ht : t ∈ ts) (htne : t ≠ "")
    (hinj : ∀ u ∈ ts, ∀ w ∈ ts, anthropicSafeName u = anthropicSafeName w → u = w) :
    gatewayName Provider.anthropic (buildAnthropicToolNameMap ts)
        (anthropicSafeName t) = t ∧
    (∀ (frozen : Option Json) (out : CallOutcome) (ab : Bool) (st : OrchState)
        (tcid : String) (args : Json), st.aborted = false →
      ((execStep Provider.anthropic (buildAnthropicToolNameMap ts) frozen out ab
          st ⟨tcid, anthropicSafeName t, args⟩).events.filter isCallEv) =
        [ExecEv.callTool t (injectSessionId frozen args)]) := by
  have hl : mapGet (buildAnthropicToolNameMap ts) (anthropicSafeName t) = some t :=
    buildMap_lookup t ts [] (fun u hu hs => hinj u hu t ht hs) (Or.inl ht)
  have hg : gatewayName Provider.anthropic (buildAnthropicToolNameMap ts)
      (anthropicSafeName t) = t := by
    unfold gatewayName
    rw [hl]
    simp [htne]
  refine ⟨hg, ?_⟩
  intro frozen out ab st tcid args hab
  cases out with
  | ok result =>
    by_cases habd : ab = true
    · simp [execStep, hab, hg, habd, isCallEv, List.filter]
    · have habf : ab = false := by simpa using habd
      simp [execStep, hab, hg, habf, isCallEv, List.filter]
  | err msg =>
    simp [execStep, hab, hg, isCallEv, List.filter]

/-- C10 witness: two tools whose sanitized names are distinct. -/
theorem anthropic_name_roundtrip_witness :
    gatewayName Provider.anthropic
        (buildAnthropicToolNameMap ["my.tool", "query db"])
        (anthropicSafeName "my.tool") = "my.tool" ∧
    ((execStep Provider.anthropic (buildAnthropicToolNameMap ["my.tool", "query db"])
        none (CallOutcome.err "boom") false ⟨none, false⟩
        ⟨"id7", anthropicSafeName "my.tool", Json.jobj []⟩).events.filter
          isCallEv) =
      [ExecEv.callTool "my.tool" (injectSessionId none (Json.jobj []))] :=
  ⟨(anthropic_name_roundtrip ["my.tool", "query db"] "my.tool" (by decide)
      (by decide) (by decide)).1,
   (anthropic_name_roundtrip ["my.tool", "query db"] "my.tool" (by decide)
      (by decide) (by decide)).2 none (CallOutcome.err "boom") false
      ⟨none, false⟩ "id7" (Json.jobj []) rfl⟩

/-! ## Lemmas: the tool-execution loop -/

/-- The loop under no abort: every call is processed in order — one
success/error record per batch element — the loop never exits early,
the abort flag stays clear, and the invocation trace is exactly the
batch's gateway calls in emission order, each carrying the same
render-frozen session injected into its arguments. -/
theorem execLoop_no_abort (provider : Provider) (nm : List (String × String))
    (frozen : Option Json) (env : ExecEnv) :
    ∀ (tcs : List MToolCall) (i : Nat) (st : OrchState),
    st.aborted = false →
    (∀ k, k < tcs.length → env.abortDuring (i + k) = false) →
    (execLoop provider nm frozen env i st tcs).tcs =
        (List.enumFrom i tcs).map (fun p => stepRecord (env.outcome p.1) p.2) ∧
    (execLoop provider nm frozen env i st tcs).exited = false ∧
    (execLoop provider nm frozen env i st tcs).st.aborted = false ∧
    ((execLoop provider nm frozen env i st tcs).events.filter isCallEv).map
        callEvName = tcs.map (fun tc => gatewayName provider nm tc.name) ∧
    (execLoop provider nm frozen env i st tcs).events.filter isCallEv =
        tcs.map (fun tc => ExecEv.callTool (gatewayName provider nm tc.name)
          (injectSessionId frozen tc.args)) := by
  intro tcs
  have key : ∀ (i : Nat) (st : OrchState), st.aborted = false →
      (∀ k, k < tcs.length → env.abortDuring (i + k) = false) →
      (execLoop provider nm frozen env i st tcs).tcs =
          (List.enumFrom i tcs).map (fun p => stepRecord (env.outcome p.1) p.2) ∧
      (execLoop provider nm frozen env i st tcs).exited = false ∧
      (execLoop provider nm frozen env i st tcs).st.aborted = false ∧
      (execLoop provider nm frozen env i st tcs).events.filter isCallEv =
          tcs.map (fun tc => ExecEv.callTool (gatewayName provider nm tc.name)
            (injectSessionId frozen tc.args)) := by
    induction tcs with
    | nil =>
      intro i st hab _
      simp [execLoop, hab, List.enumFrom]
    | cons tc rest ih =>
      intro i st hab hnd
      have hnd0 : env.abortDuring i = false := by
        have h0 := hnd 0 (by simp)
        simpa using h0
      have hndr : ∀ k, k < rest.length → env.abortDuring (i + 1 + k) = false := by
        intro k hk
        have h1 := hnd (k + 1) (by simpa using Nat.succ_lt_succ hk)
        simpa [Nat.add_assoc, Nat.add_comm 1 k] using h1
      cases hout : env.outcome i with
      | ok result =>
        have IH := ih (i + 1)
          ⟨stepSession frozen st.session (CallOutcome.ok result), false⟩ rfl hndr
        simp only [execLoop, execStep, hab, Bool.false_eq_true, if_false, hout,
          hnd0, List.enumFrom, List.map_cons]
        refine ⟨?_, IH.2.1, IH.2.2.1, ?_⟩
        · exact List.cons_eq_cons.mpr ⟨by simp [hout, stepRecord], IH.1⟩
        · simp only [List.filter_append]
          rw [IH.2.2.2]
          by_cases hinj : injectionHappens frozen tc.args = true
          · simp [hinj, isCallEv, List.filter]
          · simp [hinj, isCallEv, List.filter]
      | err msg =>
        have IH := ih (i + 1) ⟨st.session, false⟩ rfl hndr
        simp only [execLoop, execStep, hab, Bool.false_eq_true, if_false, hout,
          hnd0, List.enumFrom, List.map_cons]
        refine ⟨?_, IH.2.1, IH.2.2.1, ?_⟩
        · exact List.cons_eq_cons.mpr ⟨by simp [hout, stepRecord], IH.1⟩
        · simp only [List.filter_append]
          rw [IH.2.2.2]
          by_cases hinj : injectionHappens frozen tc.args = true
          · simp [hinj, isCallEv, List.filter]
          · simp [hinj, isCallEv, List.filter]
  intro i st hab hnd
  obtain ⟨h1, h2, h3, h5⟩ := key i st hab hnd
  refine ⟨h1, h2, h3, ?_, h5⟩
  rw [h5, List.map_map]
  rfl

/-- C9 (claim): the tool calls of one model turn execute strictly
sequentially in the order the model emitted them — the invocation trace
of `executeToolCalls` is exactly one gateway call per batch element, in
batch order (at most one call is outstanding at any instant in this
single-threaded loop) — and the batch then re-invokes the model. -/
theorem exec_sequential_in_order (provider : Provider)
    (nm : List (String × String)) (frozen : Option Json) (env : ExecEnv)
    (st : OrchState) (tcs : List MToolCall)
    (hab : st.aborted = false)
    (hnd : ∀ k, k < tcs.length → env.abortDuring k = false) :
    (((executeToolCalls provider nm frozen env st tcs).events.filter
        isCallEv).map callEvName) =
      tcs.map (fun tc => gatewayName provider nm tc.name) ∧
    (executeToolCalls provider nm frozen env st tcs).ranLLM = true := by
  have H := execLoop_no_abort provider nm frozen env tcs 0 st hab
    (by intro k hk; simpa using hnd k hk)
  unfold executeToolCalls
  dsimp only
  rw [H.2.1]
  simp only [Bool.false_eq_true, if_false]
  constructor
  · simp only [List.filter_append, List.map_append]
    rw [H.2.2.2.1]
    simp [isCallEv, List.filter]
  · trivial

/-- C9 witness: a two-call batch with no cancellation. -/
theorem exec_sequential_in_order_witness :
    (((executeToolCalls Provider.openai [] none
        ⟨fun _ => CallOutcome.ok (Json.jobj []), fun _ => false⟩
        ⟨none, false⟩
        [⟨"1", "tool_a", Json.jobj []⟩, ⟨"2", "tool_b", Json.jobj []⟩]).events.filter
          isCallEv).map callEvName) = ["tool_a", "tool_b"] ∧
    (executeToolCalls Provider.openai [] none
        ⟨fun _ => CallOutcome.ok (Json.jobj []), fun _ => false⟩
        ⟨none, false⟩
        [⟨"1", "tool_a", Json.jobj []⟩, ⟨"2", "tool_b", Json.jobj []⟩]).ranLLM = true :=
  exec_sequential_in_order Provider.openai [] none
    ⟨fun _ => CallOutcome.ok (Json.jobj []), fun _ => false⟩
    ⟨none, false⟩
    [⟨"1", "tool_a", Json.jobj []⟩, ⟨"2", "tool_b", Json.jobj []⟩]
    rfl (fun _ _ => rfl)

/-- C4 (claim): a rejected tool call does not abort the batch — with no
cancellation every call in the batch is invoked, each batch element
produces exactly one conversation-history entry, in order, and a failed
call's entry carries its error text as the result content fed back to
the model (OpenAI history shape: one `role:'tool'` message per call). -/
theorem exec_failure_isolated (nm : List (String × String))
    (frozen : Option Json) (env : ExecEnv)
    (st : OrchState) (tcs : List MToolCall)
    (hab : st.aborted = false)
    (hnd : ∀ k, k < tcs.length → env.abortDuring k = false) :
    (executeToolCalls Provider.openai nm frozen env st tcs).history =
      (List.enumFrom 0 tcs).map (fun p =>
        PMsg.toolResult p.2.id
          (match env.outcome p.1 with
           | .ok result => processToolResult result
           | .err msg => msg)) ∧
    ((executeToolCalls Provider.openai nm frozen env st tcs).events.filter
        isCallEv).length = tcs.length := by
  have H := execLoop_no_abort Provider.openai nm frozen env tcs 0 st hab
    (by intro k hk; simpa using hnd k hk)
  unfold executeToolCalls
  dsimp only
  rw [H.2.1]
  simp only [Bool.false_eq_true, if_false]
  constructor
  · rw [H.1]
    rw [List.map_map]
    apply List.map_congr_left
    intro p _
    cases hp : env.outcome p.1 with
    | ok result => simp [stepRecord, hp]
    | err msg => simp [stepRecord, hp]
  · have hlen := congrArg List.length H.2.2.2.1
    simp only [List.length_map] at hlen
    simp only [List.filter_append, List.length_append]
    rw [hlen]
    simp [isCallEv, List.filter]

/-- C4 witness: three calls, the second rejects; all three execute and
all three history entries appear, the second carrying the error
text. -/
theorem exec_failure_isolated_witness :
    (executeToolCalls Provider.openai [] none
        ⟨fun k => if k = 1 then CallOutcome.err "boom"
                  else CallOutcome.ok (Json.jobj [("content",
                    Json.jarr [Json.jobj [("type", Json.jstr "text"),
                      ("text", Json.jstr "done")]])]), fun _ => false⟩
        ⟨none, false⟩
        [⟨"1", "a", Json.jobj []⟩, ⟨"2", "b", Json.jobj []⟩,
         ⟨"3", "c", Json.jobj []⟩]).history =
      [PMsg.toolResult "1" "done", PMsg.toolResult "2" "boom",
       PMsg.toolResult "3" "done"] ∧
    ((executeToolCalls Provider.openai [] none
        ⟨fun k => if k = 1 then CallOutcome.err "boom"
                  else CallOutcome.ok (Json.jobj [("content",
                    Json.jarr [Json.jobj [("type", Json.jstr "text"),
                      ("text", Json.jstr "done")]])]), fun _ => false⟩
        ⟨none, false⟩
        [⟨"1", "a", Json.jobj []⟩, ⟨"2", "b", Json.jobj []⟩,
         ⟨"3", "c", Json.jobj []⟩]).events.filter isCallEv).length = 3 := by
  have h := exec_failure_isolated [] none
    ⟨fun k => if k = 1 then CallOutcome.err "boom"
              else CallOutcome.ok (Json.jobj [("content",
                Json.jarr [Json.jobj [("type", Json.jstr "text"),
                  ("text", Json.jstr "done")]])]), fun _ => false⟩
    ⟨none, false⟩
    [⟨"1", "a", Json.jobj []⟩, ⟨"2", "b", Json.jobj []⟩,
     ⟨"3", "c", Json.jobj []⟩]
    rfl (fun _ _ => rfl)
  exact ⟨h.1.trans (by decide), h.2⟩

/-- Dropping the head of a list with a non-empty tail keeps the last
element. -/
theorem getLastQ_cons_of_ne {α : Type _} (a : α) (l : List α) (h : l ≠ []) :
    (a :: l).getLast? = l.getLast? := by
  cases l with
  | nil => exact absurd rfl h
  | cons b t => simp [List.getLast?_cons_cons]

/-- A batch that ran to completion contains no paused record. -/
theorem execLoop_no_paused (provider : Provider) (nm : List (String × String))
    (frozen : Option Json) (env : ExecEnv) :
    ∀ (tcs : List MToolCall) (i : Nat) (st : OrchState),
    (execLoop provider nm frozen env i st tcs).exited = false →
    ∀ q ∈ (execLoop provider nm frozen env i st tcs).tcs,
      q.status ≠ MStatus.paused := by
  intro tcs
  induction tcs with
  | nil => intro i st _ q hq; simp [execLoop] at hq
  | cons tc rest ih =>
    intro i st hex q hq
    by_cases hab : st.aborted = true
    · simp [execLoop, execStep, hab] at hex
    · have hab' : st.aborted = false := by simpa using hab
      cases hout : env.outcome i with
      | ok result =>
        by_cases hd : env.abortDuring i = true
        · simp [execLoop, execStep, hab', hout, hd] at hex
        · have hd' : env.abortDuring i = false := by simpa using hd
          simp only [execLoop, execStep, hab', Bool.false_eq_true, if_false,
            hout, hd', List.mem_cons] at hex hq
          rcases hq with h1 | h2
          · subst h1; simp
          · exact ih (i + 1) _ hex q h2
      | err msg =>
        simp only [execLoop, execStep, hab', Bool.false_eq_true, if_false,
          hout, List.mem_cons] at hex hq
        rcases hq with h1 | h2
        · subst h1; simp
        · exact ih (i + 1) _ hex q h2

/-- Shape of an abort-exited batch: processed calls, then the single
paused record, then untouched pending records; the trace ends with the
one forced UI refresh and contains at most one gateway call beyond the
processed prefix. -/
theorem execLoop_abort_shape (provider : Provider) (nm : List (String × String))
    (frozen : Option Json) (env : ExecEnv) :
    ∀ (tcs : List MToolCall) (i : Nat) (st : OrchState),
    (execLoop provider nm frozen env i st tcs).exited = true →
    (execLoop provider nm frozen env i st tcs).events.getLast? =
      some ExecEv.forceUi ∧
    ∃ pre paused post,
      (execLoop provider nm frozen env i st tcs).tcs = pre ++ paused :: post ∧
      paused.status = MStatus.paused ∧ paused.result = none ∧
      (∀ q ∈ pre, q.status = MStatus.success ∨ q.status = MStatus.error) ∧
      (∀ q ∈ post, q.status = MStatus.pending ∧ q.result = none ∧
        q.errMsg = none) ∧
      ((execLoop provider nm frozen env i st tcs).events.filter
          isCallEv).length ≤ pre.length + 1 := by
  intro tcs
  induction tcs with
  | nil => intro i st hex; simp [execLoop] at hex
  | cons tc rest ih =>
    intro i st hex
    by_cases hab : st.aborted = true
    · refine ⟨?_, [], ⟨tc, .paused, none, none⟩,
        rest.map (fun t => ⟨t, .pending, none, none⟩), ?_, rfl, rfl, ?_, ?_, ?_⟩
      · simp [execLoop, execStep, hab]
      · simp [execLoop, execStep, hab]
      · intro q hq; simp at hq
      · intro q hq
        simp only [List.mem_map] at hq
        obtain ⟨t, _, rfl⟩ := hq
        exact ⟨rfl, rfl, rfl⟩
      · simp [execLoop, execStep, hab, isCallEv, List.filter]
    · have hab' : st.aborted = false := by simpa using hab
      cases hout : env.outcome i with
      | ok result =>
        by_cases hd : env.abortDuring i = true
        · simp only [execLoop, execStep, hab', Bool.false_eq_true, if_false,
            hout, hd, if_true]
          refine ⟨?_, [], ⟨tc, .paused, none, none⟩,
            rest.map (fun t => ⟨t, .pending, none, none⟩), rfl, rfl, rfl, ?_, ?_, ?_⟩
          · by_cases hinj : injectionHappens frozen tc.args = true
            · simp only [hinj, if_true]; rfl
            · simp only [hinj, Bool.false_eq_true, if_false]; rfl
          · intro q hq; simp at hq
          · intro q hq
            simp only [List.mem_map] at hq
            obtain ⟨t, _, rfl⟩ := hq
            exact ⟨rfl, rfl, rfl⟩
          · by_cases hinj : injectionHappens frozen tc.args = true
            · simp [hinj, isCallEv, List.filter]
            · simp [hinj, isCallEv, List.filter]
        · have hd' : env.abortDuring i = false := by simpa using hd
          simp only [execLoop, execStep, hab', Bool.false_eq_true, if_false,
            hout, hd'] at hex ⊢
          obtain ⟨hlast, pre, paused, post, htcs, hp1, hp2, hpre, hpost, hlen⟩ :=
            ih (i + 1) ⟨stepSession frozen st.session (CallOutcome.ok result), false⟩ hex
          have hne : (execLoop provider nm frozen env (i + 1)
              ⟨stepSession frozen st.session (CallOutcome.ok result), false⟩ rest).events ≠ [] := by
            intro hnil
            rw [hnil] at hlast
            simp at hlast
          refine ⟨?_, ⟨tc, .success, some (processToolResult result), none⟩ :: pre,
            paused, post, by rw [htcs]; rfl, hp1, hp2, ?_, hpost, ?_⟩
          · by_cases hinj : injectionHappens frozen tc.args = true
            · simp only [hinj, if_true, List.cons_append, List.nil_append,
                List.singleton_append, List.append_assoc]
              repeat rw [getLastQ_cons_of_ne _ _ (by first | exact hne | simp)]
              exact hlast
            · simp only [hinj, Bool.false_eq_true, if_false, List.cons_append,
                List.nil_append, List.singleton_append, List.append_assoc]
              repeat rw [getLastQ_cons_of_ne _ _ (by first | exact hne | simp)]
              exact hlast
          · intro q hq
            rcases List.mem_cons.mp hq with h1 | h2
            · subst h1; exact Or.inl rfl
            · exact hpre q h2
          · by_cases hinj : injectionHappens frozen tc.args = true
            · simp only [hinj, if_true, List.filter_append, List.length_append,
                List.length_cons]
              simp [isCallEv, List.filter]
              omega
            · simp only [hinj, Bool.false_eq_true, if_false, List.filter_append,
                List.length_append, List.length_cons]
              simp [isCallEv, List.filter]
              omega
      | err msg =>
        simp only [execLoop, execStep, hab', Bool.false_eq_true, if_false,
          hout] at hex ⊢
        obtain ⟨hlast, pre, paused, post, htcs, hp1, hp2, hpre, hpost, hlen⟩ :=
          ih (i + 1) ⟨st.session, env.abortDuring i⟩ hex
        have hne : (execLoop provider nm frozen env (i + 1)
            ⟨st.session, env.abortDuring i⟩ rest).events ≠ [] := by
          intro hnil
          rw [hnil] at hlast
          simp at hlast
        refine ⟨?_, ⟨tc, .error, none, some msg⟩ :: pre,
          paused, post, by rw [htcs]; rfl, hp1, hp2, ?_, hpost, ?_⟩
        · by_cases hinj : injectionHappens frozen tc.args = true
          · simp only [hinj, if_true, List.cons_append, List.nil_append,
              List.singleton_append, List.append_assoc]
            repeat rw [getLastQ_cons_of_ne _ _ (by first | exact hne | simp)]
            exact hlast
          · simp only [hinj, Bool.false_eq_true, if_false, List.cons_append,
              List.nil_append, List.singleton_append, List.append_assoc]
            repeat rw [getLastQ_cons_of_ne _ _ (by first | exact hne | simp)]
            exact hlast
        · intro q hq
          rcases List.mem_cons.mp hq with h1 | h2
          · subst h1; exact Or.inr rfl
          · exact hpre q h2
        · by_cases hinj : injectionHappens frozen tc.args = true
          · simp only [hinj, if_true, List.filter_append, List.length_append,
              List.length_cons]
            simp [isCallEv, List.filter]
            omega
          · simp only [hinj, Bool.false_eq_true, if_false, List.filter_append,
              List.length_append, List.length_cons]
            simp [isCallEv, List.filter]
            omega

/-- C5 counterexample: the user presses stop while the only tool call
of a batch is in flight.  The post-call check observes the flag — yet
the run still mutates state after the abort point: the call's status is
set to `paused` and a forced `setMessages` refresh (the trace's final
`forceUi` event, after the `callTool`) lands on the UI transcript. -/
theorem cancellation_late_mutation_counterexample :
    (executeToolCalls Provider.openai [] none
        ⟨fun _ => CallOutcome.ok Json.jnull, fun _ => true⟩
        ⟨none, false⟩ [⟨"t1", "f", Json.jobj []⟩]).events =
      [ExecEv.setActive (some "t1"), ExecEv.uiStatus "t1" MStatus.pending,
       ExecEv.callTool "f" (Json.jobj []), ExecEv.forceUi] ∧
    (executeToolCalls Provider.openai [] none
        ⟨fun _ => CallOutcome.ok Json.jnull, fun _ => true⟩
        ⟨none, false⟩ [⟨"t1", "f", Json.jobj []⟩]).finalAborted = true ∧
    (executeToolCalls Provider.openai [] none
        ⟨fun _ => CallOutcome.ok Json.jnull, fun _ => true⟩
        ⟨none, false⟩ [⟨"t1", "f", Json.jobj []⟩]).tcs.map
          (fun t => t.status) = [MStatus.paused] :=
  ⟨rfl, rfl, rfl⟩

/-- C5 (amended): the abort flag is checked before each tool call and
after each call's successful return; once a check observes it (some
record is marked paused), no further tool call starts — later batch
elements stay untouched pending records, the invocation count is at
most the processed prefix plus the in-flight call — the batch appends
nothing to the conversation history, does not re-invoke the model, and
the only mutation after the observation is the paused marking with its
single trailing forced UI refresh. -/
theorem cancellation_abort_contract (provider : Provider)
    (nm : List (String × String)) (frozen : Option Json) (env : ExecEnv)
    (st : OrchState) (tcs : List MToolCall)
    (hpaused : ∃ q ∈ (executeToolCalls provider nm frozen env st tcs).tcs,
      q.status = MStatus.paused) :
    (executeToolCalls provider nm frozen env st tcs).history = [] ∧
    (executeToolCalls provider nm frozen env st tcs).ranLLM = false ∧
    (executeToolCalls provider nm frozen env st tcs).events.getLast? =
      some ExecEv.forceUi ∧
    ∃ pre paused post,
      (executeToolCalls provider nm frozen env st tcs).tcs = pre ++ paused :: post ∧
      paused.status = MStatus.paused ∧ paused.result = none ∧
      (∀ q ∈ pre, q.status = MStatus.success ∨ q.status = MStatus.error) ∧
      (∀ q ∈ post, q.status = MStatus.pending ∧ q.result = none ∧
        q.errMsg = none) ∧
      (((executeToolCalls provider nm frozen env st tcs).events.filter
          isCallEv).length ≤ pre.length + 1) := by
  cases hex : (execLoop provider nm frozen env 0 st tcs).exited with
  | false =>
    obtain ⟨q, hq, hqp⟩ := hpaused
    have hnp := execLoop_no_paused provider nm frozen env tcs 0 st hex
    unfold executeToolCalls at hq
    dsimp only at hq
    rw [hex] at hq
    simp only [Bool.false_eq_true, if_false] at hq
    exact absurd hqp (hnp q hq)
  | true =>
    obtain ⟨hlast, pre, paused, post, htcs, hp1, hp2, hpre, hpost, hlen⟩ :=
      execLoop_abort_shape provider nm frozen env tcs 0 st hex
    unfold executeToolCalls
    dsimp only
    rw [hex]
    simp only [if_true]
    exact ⟨trivial, trivial, hlast, pre, paused, post, htcs, hp1, hp2, hpre, hpost, hlen⟩

/-- C5 witness: stop pressed during the first of two calls — the batch
ends with only the paused marking, the second call untouched. -/
theorem cancellation_abort_contract_witness :
    (executeToolCalls Provider.openai [] none
        ⟨fun _ => CallOutcome.ok Json.jnull, fun _ => true⟩
        ⟨none, false⟩
        [⟨"t1", "f", Json.jobj []⟩, ⟨"t2", "g", Json.jobj []⟩]).history = [] ∧
    (executeToolCalls Provider.openai [] none
        ⟨fun _ => CallOutcome.ok Json.jnull, fun _ => true⟩
        ⟨none, false⟩
        [⟨"t1", "f", Json.jobj []⟩, ⟨"t2", "g", Json.jobj []⟩]).ranLLM = false ∧
    (executeToolCalls Provider.openai [] none
        ⟨fun _ => CallOutcome.ok Json.jnull, fun _ => true⟩
        ⟨none, false⟩
        [⟨"t1", "f", Json.jobj []⟩, ⟨"t2", "g", Json.jobj []⟩]).events.getLast? =
      some ExecEv.forceUi ∧
    ∃ pre paused post,
      (executeToolCalls Provider.openai [] none
        ⟨fun _ => CallOutcome.ok Json.jnull, fun _ => true⟩
        ⟨none, false⟩
        [⟨"t1", "f", Json.jobj []⟩, ⟨"t2", "g", Json.jobj []⟩]).tcs =
          pre ++ paused :: post ∧
      paused.status = MStatus.paused ∧ paused.result = none ∧
      (∀ q ∈ pre, q.status = MStatus.success ∨ q.status = MStatus.error) ∧
      (∀ q ∈ post, q.status = MStatus.pending ∧ q.result = none ∧
        q.errMsg = none) ∧
      (((executeToolCalls Provider.openai [] none
        ⟨fun _ => CallOutcome.ok Json.jnull, fun _ => true⟩
        ⟨none, false⟩
        [⟨"t1", "f", Json.jobj []⟩, ⟨"t2", "g", Json.jobj []⟩]).events.filter
          isCallEv).length ≤ pre.length + 1) :=
  cancellation_abort_contract Provider.openai [] none
    ⟨fun _ => CallOutcome.ok Json.jnull, fun _ => true⟩
    ⟨none, false⟩
    [⟨"t1", "f", Json.jobj []⟩, ⟨"t2", "g", Json.jobj []⟩]
    ⟨⟨⟨"t1", "f", Json.jobj []⟩, MStatus.paused, none, none⟩,
      List.mem_cons_self _ _, rfl⟩

/-! ## Lemmas: session extraction and injection -/

/-- The `typeof === 'object'` guard is redundant before a truthy field
access: only objects have fields at all. -/
theorem typeof_and_truthyField (item : Json) (k : String) :
    (jsTypeofObject item && jtruthyOpt (item.getField k)) =
      jtruthyOpt (item.getField k) := by
  cases item <;> simp [jsTypeofObject, Json.getField, jtruthyOpt]

/-- `truthyField` as the truthiness-gated field access. -/
theorem truthyField_eq (j : Json) (k : String) :
    truthyField j k =
      (if jtruthyOpt (j.getField k) then j.getField k else none) := by
  unfold truthyField jtruthyOpt
  cases hf : j.getField k with
  | none => rfl
  | some v =>
    by_cases hv : jtruthy v = true
    · simp [hv]
    · simp [hv]
    
/-- The source's item scan is the per-element first-match search. -/
theorem extractFromItems_eq (items : List Json) :
    extractFromItems items = items.findSome? itemSession := by
  induction items with
  | nil => rfl
  | cons item rest ih =>
    rw [List.findSome?_cons]
    show (if jsTypeofObject item && jtruthyOpt (item.getField "session_id") then
        item.getField "session_id"
      else if jsTypeofObject item && jtruthyOpt (item.getField "text") then
        (match item.getField "text" with
         | some (.jstr s) =>
            (match jparse s with
             | some parsed =>
                 if jtruthyOpt (parsed.getField "session_id") then
                   parsed.getField "session_id"
                 else extractFromItems rest
             | none => extractFromItems rest)
         | _ => extractFromItems rest)
      else extractFromItems rest) = _
    rw [typeof_and_truthyField, typeof_and_truthyField]
    by_cases h1 : jtruthyOpt (item.getField "session_id") = true
    · cases hf : item.getField "session_id" with
      | none => rw [hf] at h1; simp [jtruthyOpt] at h1
      | some v =>
        rw [hf] at h1
        have hv : jtruthy v = true := by simpa [jtruthyOpt] using h1
        have hIS : itemSession item = some v := by
          unfold itemSession
          rw [truthyField_eq, hf]
          simp [jtruthyOpt, hv]
        rw [hIS]
        simp [jtruthyOpt, hv]
    · have hIS : itemSession item = embeddedSession item := by
        unfold itemSession
        rw [truthyField_eq]
        simp [h1]
      rw [hIS]
      simp only [h1, Bool.false_eq_true, if_false]
      by_cases h2 : jtruthyOpt (item.getField "text") = true
      · simp only [h2, if_true]
        cases hf : item.getField "text" with
        | none => rw [hf] at h2; simp [jtruthyOpt] at h2
        | some tv =>
          cases tv with
          | jstr s =>
            have hs : ¬ s = "" := by
              rw [hf] at h2
              simpa [jtruthyOpt, jtruthy] using h2
            have he : embeddedSession item =
                (jparse s).bind (fun p => truthyField p "session_id") := by
              unfold embeddedSession
              rw [hf]
              simp [hs]
            rw [he]
            dsimp only
            cases hp : jparse s with
            | none => exact ih
            | some parsed =>
              dsimp only
              by_cases h3 : jtruthyOpt (parsed.getField "session_id") = true
              · simp only [h3, if_true]
                cases hg : parsed.getField "session_id" with
                | none => rw [hg] at h3; simp [jtruthyOpt] at h3
                | some v =>
                  have hRT : truthyField parsed "session_id" = some v := by
                    rw [truthyField_eq, hg]
                    rw [hg] at h3
                    simp [h3]
                  rw [show (some parsed).bind (fun p => truthyField p "session_id") =
                    truthyField parsed "session_id" from rfl, hRT]
              · simp only [h3, Bool.false_eq_true, if_false]
                have hRT : truthyField parsed "session_id" = none := by
                  rw [truthyField_eq]
                  simp [h3]
                rw [show (some parsed).bind (fun p => truthyField p "session_id") =
                  truthyField parsed "session_id" from rfl, hRT]
                exact ih
          | jnull =>
            rw [hf] at h2
            simp [jtruthyOpt, jtruthy] at h2
          | jbool b =>
            have he : embeddedSession item = none := by
              unfold embeddedSession
              rw [hf]
            rw [he]
            exact ih
          | jnum n =>
            have he : embeddedSession item = none := by
              unfold embeddedSession
              rw [hf]
            rw [he]
            exact ih
          | jarr xs =>
            have he : embeddedSession item = none := by
              unfold embeddedSession
              rw [hf]
            rw [he]
            exact ih
          | jobj fs =>
            have he : embeddedSession item = none := by
              unfold embeddedSession
              rw [hf]
            rw [he]
            exact ih
      · simp only [h2, Bool.false_eq_true, if_false]
        have hemb : embeddedSession item = none := by
          unfold embeddedSession
          cases hf : item.getField "text" with
          | none => rfl
          | some tv =>
            cases tv with
            | jstr s =>
              have hs : s = "" := by
                rw [hf] at h2
                simpa [jtruthyOpt, jtruthy] using h2
              simp [hs]
            | jnull => rfl
            | jbool b => rfl
            | jnum n => rfl
            | jarr xs => rfl
            | jobj fs => rfl
        rw [hemb]
        exact ih

/-- The source's whole session search equals the amended search
specification. -/
theorem extractSessionId_eq (r : Json) :
    extractSessionId r = sessionSearchAmended r := by
  unfold extractSessionId sessionSearchAmended
  cases hc : r.getField "content" with
  | none =>
    rw [truthyField_eq]
  | some content =>
    by_cases ht : jtruthy content = true
    · simp only [ht, if_true]
      cases content with
      | jarr items =>
        dsimp only
        rw [extractFromItems_eq]
        cases items.findSome? itemSession with
        | none => rw [truthyField_eq]
        | some v => rfl
      | jstr s =>
        dsimp only
        cases hp : jparse s with
        | none => rw [truthyField_eq]; rfl
        | some parsed =>
          dsimp only
          rw [show (some parsed).bind (fun p => truthyField p "session_id") =
            truthyField parsed "session_id" from rfl, truthyField_eq]
          by_cases h3 : jtruthyOpt (parsed.getField "session_id") = true
          · simp only [h3, if_true]
            cases hg : parsed.getField "session_id" with
            | none => rw [hg] at h3; simp [jtruthyOpt] at h3
            | some v => rfl
          · simp only [h3, Bool.false_eq_true, if_false]
            rw [truthyField_eq]
      | jnull => simp [jtruthy] at ht
      | jbool b =>
        dsimp only
        simp only [jsTypeofObject, Bool.false_and, Bool.false_eq_true, if_false]
        rw [show truthyField (Json.jbool b) "session_id" = none from rfl,
          truthyField_eq]
      | jnum n =>
        dsimp only
        simp only [jsTypeofObject, Bool.false_and, Bool.false_eq_true, if_false]
        rw [show truthyField (Json.jnum n) "session_id" = none from rfl,
          truthyField_eq]
      | jobj fs =>
        dsimp only
        rw [typeof_and_truthyField]
        by_cases h3 : jtruthyOpt ((Json.jobj fs).getField "session_id") = true
        · simp only [h3, if_true]
          rw [truthyField_eq _ "session_id"]
          simp only [h3, if_true]
          cases hg : (Json.jobj fs).getField "session_id" with
          | none => rw [hg] at h3; simp [jtruthyOpt] at h3
          | some v => rfl
        · simp only [h3, Bool.false_eq_true, if_false]
          rw [truthyField_eq _ "session_id"]
          simp only [h3, Bool.false_eq_true, if_false]
          rw [truthyField_eq]
    · have ht' : jtruthy content = false := by simpa using ht
      simp only [ht', Bool.false_eq_true, if_false]
      rw [truthyField_eq]

/-- C1 counterexample: `content` is an array whose first element embeds
`{"session_id":"A"}` in its `text` while the second element carries a
direct field `session_id:"B"`.  The claimed two-pass order (all
elements for the field, then all elements for embedded JSON) would find
`B`; the source scans per element — field first, then embedded text —
and finds `A`. -/
theorem session_search_order_counterexample :
    extractSessionId (Json.jobj [("content", Json.jarr [
        Json.jobj [("text", Json.jstr "\x7b\"session_id\":\"A\"\x7d")],
        Json.jobj [("session_id", Json.jstr "B")]])]) ≠
      sessionSearchTwoPassSpec (Json.jobj [("content", Json.jarr [
        Json.jobj [("text", Json.jstr "\x7b\"session_id\":\"A\"\x7d")],
        Json.jobj [("session_id", Json.jstr "B")]])]) := by
  intro h
  have h1 : extractSessionId (Json.jobj [("content", Json.jarr [
      Json.jobj [("text", Json.jstr "\x7b\"session_id\":\"A\"\x7d")],
      Json.jobj [("session_id", Json.jstr "B")]])]) =
      some (Json.jstr "A") := rfl
  have h2 : sessionSearchTwoPassSpec (Json.jobj [("content", Json.jarr [
      Json.jobj [("text", Json.jstr "\x7b\"session_id\":\"A\"\x7d")],
      Json.jobj [("session_id", Json.jstr "B")]])]) =
      some (Json.jstr "B") := rfl
  rw [h1, h2] at h
  have h3 := Option.some.inj h
  have h4 : "A" = "B" := Json.jstr.inj h3
  simp at h4

/-- C1 (amended): the session-extraction order is per array element —
for each `content` item the object field first, then the embedded JSON
text — then a direct object field, a JSON-embedded string, and the
top-level field, first truthy match winning.  `sessionId` is React
state read through the render's closure, hence frozen for the whole
run: with no cancellation every call of a batch is invoked with the
same run-start session, merged into its arguments under `session_id`
exactly when they do not already carry a truthy one — a session
extracted mid-batch is never injected into a later call of the same
batch.  When the run starts with a truthy session no extraction runs
and the pending cell survives the batch; when it starts falsy, every
successful truthy result is scanned and each truthy extraction
overwrites the pending `setSessionId` cell regardless of earlier
writes — within one run the session can be set more than once, the
last write winning and becoming visible only to later runs. -/
theorem session_contract :
    (∀ r : Json, extractSessionId r = sessionSearchAmended r) ∧
    (∀ (sv : Json) (fs : List (String × Json)), jtruthy sv = true →
        jtruthyOpt ((Json.jobj fs).getField "session_id") = false →
        injectSessionId (some sv) (Json.jobj fs) =
          Json.jobj (objSet fs "session_id" sv)) ∧
    (∀ (sv : Json) (args : Json),
        jtruthyOpt ((Json.jobj (argsObjFields args)).getField "session_id") = true →
        injectSessionId (some sv) args = Json.jobj (argsObjFields args)) ∧
    (∀ (provider : Provider) (nm : List (String × String))
        (frozen : Option Json) (env : ExecEnv) (tcs : List MToolCall)
        (st : OrchState),
        st.aborted = false →
        (∀ k, k < tcs.length → env.abortDuring k = false) →
        (execLoop provider nm frozen env 0 st tcs).events.filter isCallEv =
          tcs.map (fun tc => ExecEv.callTool (gatewayName provider nm tc.name)
            (injectSessionId frozen tc.args))) ∧
    (∀ (provider : Provider) (nm : List (String × String))
        (frozen : Option Json) (env : ExecEnv) (tcs : List MToolCall)
        (i : Nat) (st : OrchState),
        sessTruthy frozen = true →
        (execLoop provider nm frozen env i st tcs).st.session = st.session) ∧
    (∀ (provider : Provider) (nm : List (String × String))
        (frozen : Option Json) (result : Json) (st : OrchState)
        (tc : MToolCall),
        st.aborted = false → sessTruthy frozen = false →
        (execStep provider nm frozen (CallOutcome.ok result) false st
            tc).st.session =
          (if jtruthy result then
            (match extractSessionId result with
             | some v => if jtruthy v then some v else st.session
             | none => st.session)
           else st.session)) ∧
    (∀ (frozen pending : Option Json) (r v : Json),
        sessTruthy frozen = false → jtruthy r = true →
        extractSessionId r = some v → jtruthy v = true →
        stepSession frozen pending (CallOutcome.ok r) = some v) := by
  refine ⟨extractSessionId_eq, ?_, ?_, ?_, ?_, ?_, ?_⟩
  · intro sv fs htr hfield
    unfold injectSessionId injectionHappens argsObjFields
    simp [htr, hfield]
  · intro sv args hfield
    unfold injectSessionId injectionHappens
    simp [hfield]
  · intro provider nm frozen env tcs st hab hnd
    exact (execLoop_no_abort provider nm frozen env tcs 0 st hab
      (by intro k hk; simpa using hnd k hk)).2.2.2.2
  · intro provider nm frozen env tcs
    induction tcs with
    | nil => intro i st _; rfl
    | cons tc rest ih =>
      intro i st hs
      by_cases hab : st.aborted = true
      · simp [execLoop, execStep, hab]
      · have hab' : st.aborted = false := by simpa using hab
        cases hout : env.outcome i with
        | ok result =>
          by_cases hd : env.abortDuring i = true
          · simp [execLoop, execStep, hab', hout, hd]
          · have hd' : env.abortDuring i = false := by simpa using hd
            have hsess : stepSession frozen st.session (CallOutcome.ok result) =
                st.session := by
              unfold stepSession
              simp [hs]
            simp only [execLoop, execStep, hab', Bool.false_eq_true, if_false,
              hout, hd', hsess]
            have := ih (i + 1) ⟨st.session, false⟩ hs
            simpa using this
        | err msg =>
          simp only [execLoop, execStep, hab', Bool.false_eq_true, if_false, hout]
          have := ih (i + 1) ⟨st.session, env.abortDuring i⟩ hs
          simpa using this
  · intro provider nm frozen result st tc hab hs
    simp only [execStep, hab, Bool.false_eq_true, if_false]
    unfold stepSession
    simp only [hs, Bool.not_false, Bool.true_and]
  · intro frozen pending r v hf hr he hv
    unfold stepSession
    simp [hf, hr, he, hv]

/-- C1 witness: a truthy run-start session is injected into arguments
lacking one and is the value every call of the batch receives; it
survives the batch unchanged; and with a falsy run-start session a
truthy extraction overwrites an earlier pending write. -/
theorem session_contract_witness :
    injectSessionId (some (Json.jstr "abc123"))
        (Json.jobj [("name", Json.jstr "X")]) =
      Json.jobj [("name", Json.jstr "X"), ("session_id", Json.jstr "abc123")] ∧
    (execLoop Provider.openai [] (some (Json.jstr "abc123"))
        ⟨fun _ => CallOutcome.ok Json.jnull, fun _ => false⟩ 0
        ⟨some (Json.jstr "abc123"), false⟩
        [⟨"1", "f", Json.jobj []⟩]).events.filter isCallEv =
      [ExecEv.callTool "f" (Json.jobj [("session_id", Json.jstr "abc123")])] ∧
    (execLoop Provider.openai [] (some (Json.jstr "abc123"))
        ⟨fun _ => CallOutcome.ok Json.jnull, fun _ => false⟩ 0
        ⟨some (Json.jstr "abc123"), false⟩
        [⟨"1", "f", Json.jobj []⟩]).st.session = some (Json.jstr "abc123") ∧
    stepSession none (some (Json.jstr "OLD"))
        (CallOutcome.ok (Json.jobj [("session_id", Json.jstr "NEW")])) =
      some (Json.jstr "NEW") :=
  ⟨(session_contract.2.1 (Json.jstr "abc123") [("name", Json.jstr "X")]
      rfl rfl).trans rfl,
   (session_contract.2.2.2.1 Provider.openai [] (some (Json.jstr "abc123"))
      ⟨fun _ => CallOutcome.ok Json.jnull, fun _ => false⟩
      [⟨"1", "f", Json.jobj []⟩] ⟨some (Json.jstr "abc123"), false⟩ rfl
      (fun _ _ => rfl)).trans rfl,
   session_contract.2.2.2.2.1 Provider.openai [] (some (Json.jstr "abc123"))
     ⟨fun _ => CallOutcome.ok Json.jnull, fun _ => false⟩
     [⟨"1", "f", Json.jobj []⟩] 0 ⟨some (Json.jstr "abc123"), false⟩ rfl,
   session_contract.2.2.2.2.2.2 none (some (Json.jstr "OLD"))
     (Json.jobj [("session_id", Json.jstr "NEW")]) (Json.jstr "NEW")
     rfl rfl rfl rfl⟩

/-! ## Lemmas: provider-history operations -/

/-- C8 counterexample: when the tool list changes, the system-prompt
refresh effect overwrites `providerMessages[0].content` in place — the
old history is not a prefix of the new one, so the history is not
mutated only by appending. -/
theorem history_append_only_counterexample :
    ¬ isAppendOnlyStep [PMsg.system "old prompt"]
      (applyHistOp [PMsg.system "old prompt"]
        (HistOp.refreshSystem "new prompt")) := by
  unfold isAppendOnlyStep applyHistOp
  decide

/-- Every operation preserves a system-message head. -/
theorem applyHistOp_head (h : List PMsg) (op : HistOp)
    (hh : headIsSystem h) : headIsSystem (applyHistOp h op) := by
  cases h with
  | nil => cases hh
  | cons m t =>
    cases m with
    | system c =>
      cases op with
      | refreshSystem p => exact trivial
      | pushUser c2 => exact trivial
      | pushAssistantText c2 => exact trivial
      | pushAssistantToolCalls tcs => exact trivial
      | pushToolResult tcId c2 => exact trivial
    | userText c => cases hh
    | assistantText c => cases hh
    | assistantToolCalls tcs => cases hh
    | toolResult tcId c => cases hh
    | userToolResults rs => cases hh

/-- C8 (amended): within one conversation the OpenAI provider history
is mutated only by appending — except the system-prompt refresh, which
edits exactly the head element's content in place (leaving length and
tail untouched, and only when the head is the system message) — and
after any operation sequence from the init effect the first element is
always the system message. -/
theorem history_ops_contract :
    (∀ (h : List PMsg) (op : HistOp), isRefreshOp op = false →
        isAppendOnlyStep h (applyHistOp h op)) ∧
    (∀ (h : List PMsg) (p : String),
        (applyHistOp h (HistOp.refreshSystem p)).length = h.length ∧
        (applyHistOp h (HistOp.refreshSystem p)).tail = h.tail ∧
        (headIsSystem h →
          applyHistOp h (HistOp.refreshSystem p) = PMsg.system p :: h.tail)) ∧
    (∀ (prompt0 : String) (ops : List HistOp),
        headIsSystem (runHistOps prompt0 ops)) := by
  refine ⟨?_, ?_, ?_⟩
  · intro h op href
    cases op with
    | refreshSystem p => simp [isRefreshOp] at href
    | pushUser c => simp [isAppendOnlyStep, applyHistOp]
    | pushAssistantText c => simp [isAppendOnlyStep, applyHistOp]
    | pushAssistantToolCalls tcs => simp [isAppendOnlyStep, applyHistOp]
    | pushToolResult tcId c => simp [isAppendOnlyStep, applyHistOp]
  · intro h p
    cases h with
    | nil => exact ⟨rfl, rfl, fun hh => absurd hh (by simp [headIsSystem])⟩
    | cons m t =>
      cases m with
      | system c => exact ⟨rfl, rfl, fun _ => rfl⟩
      | userText c => exact ⟨rfl, rfl, fun hh => absurd hh (by simp [headIsSystem])⟩
      | assistantText c => exact ⟨rfl, rfl, fun hh => absurd hh (by simp [headIsSystem])⟩
      | assistantToolCalls tcs => exact ⟨rfl, rfl, fun hh => absurd hh (by simp [headIsSystem])⟩
      | toolResult tcId c => exact ⟨rfl, rfl, fun hh => absurd hh (by simp [headIsSystem])⟩
      | userToolResults rs => exact ⟨rfl, rfl, fun hh => absurd hh (by simp [headIsSystem])⟩
  · intro prompt0 ops
    unfold runHistOps
    have hgen : ∀ (l : List HistOp) (h : List PMsg), headIsSystem h →
        headIsSystem (l.foldl applyHistOp h) := by
      intro l
      induction l with
      | nil => intro h hh; exact hh
      | cons op rest ih =>
        intro h hh
        exact ih (applyHistOp h op) (applyHistOp_head h op hh)
    exact hgen ops (initOpenAIHistory prompt0) trivial

/-- C8 witness: appends are append-only; a refresh on a system-headed
history rewrites the head; the head stays the system message. -/
theorem history_ops_contract_witness :
    isAppendOnlyStep [PMsg.system "p"]
      (applyHistOp [PMsg.system "p"] (HistOp.pushUser "hi")) ∧
    applyHistOp [PMsg.system "p", PMsg.userText "hi"]
      (HistOp.refreshSystem "q") =
        PMsg.system "q" :: [PMsg.system "p", PMsg.userText "hi"].tail ∧
    headIsSystem (runHistOps "p" [HistOp.pushUser "hi",
      HistOp.refreshSystem "q"]) :=
  ⟨history_ops_contract.1 [PMsg.system "p"] (HistOp.pushUser "hi") rfl,
   (history_ops_contract.2.1 [PMsg.system "p", PMsg.userText "hi"] "q").2.2
     trivial,
   history_ops_contract.2.2 "p" [HistOp.pushUser "hi", HistOp.refreshSystem "q"]⟩

/-! ## Lemmas: stream-turn history and batch bookkeeping -/

/-- The streaming-UI text update touches neither the provider history
nor the recorded batches. -/
theorem uiTextUpdate_hist (s : StreamState) (t : String) :
    (uiTextUpdate s t).history = s.history ∧
    (uiTextUpdate s t).batches = s.batches := by
  unfold uiTextUpdate
  by_cases h : (!s.messageCreated) = true
  · rw [if_pos h]; exact ⟨rfl, rfl⟩
  · rw [if_neg h]; exact ⟨rfl, rfl⟩

/-- The tool-batch UI update touches neither the provider history nor
the recorded batches. -/
theorem uiToolUpdate_hist (s : StreamState) (c : List MToolCall) :
    (uiToolUpdate s c).history = s.history ∧
    (uiToolUpdate s c).batches = s.batches := by
  unfold uiToolUpdate
  by_cases h : (!s.messageCreated) = true
  · rw [if_pos h]; exact ⟨rfl, rfl⟩
  · rw [if_neg h]; exact ⟨rfl, rfl⟩

/-- The text-delta statement touches neither the provider history nor
the recorded batches. -/
theorem handleDeltaText_hist (s : StreamState) (d : Option Json) :
    (handleDeltaText s d).history = s.history ∧
    (handleDeltaText s d).batches = s.batches := by
  unfold handleDeltaText
  by_cases h : jtruthyOpt d = true
  · rw [if_pos h]; exact uiTextUpdate_hist s _
  · rw [if_neg h]; exact ⟨rfl, rfl⟩

/-- The tool-call statement either leaves history and batches unchanged
or appends one assistant tool-call intent together with one batch. -/
theorem handleToolField_effects (s : StreamState) (tc : Option Json) :
    ((handleToolField s tc).history = s.history ∧
     (handleToolField s tc).batches = s.batches) ∨
    (∃ r c, (handleToolField s tc).history =
        s.history ++ [PMsg.assistantToolCalls r] ∧
      (handleToolField s tc).batches = s.batches ++ [c]) := by
  cases tc with
  | none => exact Or.inl ⟨rfl, rfl⟩
  | some j =>
    cases j with
    | jnull => exact Or.inl ⟨rfl, rfl⟩
    | jbool b => exact Or.inl ⟨rfl, rfl⟩
    | jnum n => exact Or.inl ⟨rfl, rfl⟩
    | jstr t => exact Or.inl ⟨rfl, rfl⟩
    | jobj fields => exact Or.inl ⟨rfl, rfl⟩
    | jarr items =>
      unfold handleToolField
      dsimp only
      by_cases he : (oaiAccumStep s.acc (items.map toOAIDelta)).2.isEmpty = true
      · rw [if_pos he]
        exact Or.inl ⟨rfl, rfl⟩
      · rw [if_neg he]
        refine Or.inr ⟨(oaiAccumStep s.acc (items.map toOAIDelta)).2,
          (oaiAccumStep s.acc (items.map toOAIDelta)).2.map recToCall, ?_, ?_⟩
        · show (uiToolUpdate _ _).history = _
          rw [(uiToolUpdate_hist _ _).1]
        · show (uiToolUpdate _ _).batches ++ _ = _
          rw [(uiToolUpdate_hist _ _).2]

/-- One handled event either leaves history and batches unchanged or
appends one assistant tool-call intent together with one batch. -/
theorem handleOAIEvent_effects (st : StreamState) (ev : SSEEvent) :
    ((handleOAIEvent st ev).history = st.history ∧
     (handleOAIEvent st ev).batches = st.batches) ∨
    (∃ r c, (handleOAIEvent st ev).history =
        st.history ++ [PMsg.assistantToolCalls r] ∧
      (handleOAIEvent st ev).batches = st.batches ++ [c]) := by
  unfold handleOAIEvent
  cases hp : jparse ev.payload with
  | none => exact Or.inl ⟨rfl, rfl⟩
  | some parsed =>
    dsimp only
    rcases handleToolField_effects
        (handleDeltaText st
          (jfield (jfield (jidx (Json.getField parsed "choices") 0) "delta")
            "content"))
        (jfield (jfield (jidx (Json.getField parsed "choices") 0) "delta")
          "tool_calls") with ⟨h1, h2⟩ | ⟨r, c, h1, h2⟩
    · have hd := handleDeltaText_hist st
        (jfield (jfield (jidx (Json.getField parsed "choices") 0) "delta")
          "content")
      exact Or.inl ⟨by rw [h1, hd.1], by rw [h2, hd.2]⟩
    · have hd := handleDeltaText_hist st
        (jfield (jfield (jidx (Json.getField parsed "choices") 0) "delta")
          "content")
      exact Or.inr ⟨r, c, by rw [h1, hd.1], by rw [h2, hd.2]⟩

/-- If a whole handled event sequence ends with no recorded batches,
it never touched the provider history. -/
theorem foldl_handle_batches_nil (evs : List SSEEvent) :
    ∀ st : StreamState, (evs.foldl handleOAIEvent st).batches = [] →
      (evs.foldl handleOAIEvent st).history = st.history ∧ st.batches = [] := by
  induction evs with
  | nil => intro st h; exact ⟨rfl, h⟩
  | cons ev rest ih =>
    intro st h
    rw [List.foldl_cons] at h ⊢
    obtain ⟨hh, hb1⟩ := ih (handleOAIEvent st ev) h
    rcases handleOAIEvent_effects st ev with ⟨h1, h2⟩ | ⟨r, c, h1, h2⟩
    · exact ⟨by rw [hh, h1], by rw [← h2]; exact hb1⟩
    · rw [h2] at hb1
      simp at hb1

/-- C6 counterexample: a turn that streams the text delta "Hel" and is
then interrupted by a mid-stream read error surfaces the error but also
commits the partial assistant message "Hel" to the provider history —
the history is not left as it was before the turn. -/
theorem model_failure_partial_commit_counterexample :
    (callLLMOpenAI [] (LLMOutcome.streamed [c6Chunk] true)).errorSurfaced
      = true ∧
    (callLLMOpenAI [] (LLMOutcome.streamed [c6Chunk] true)).historyAppends
      = [PMsg.assistantText "Hel"] := by
  have hfb : findBoundary c6Chunk = some (47, 2) := by decide
  have hne1 : ¬((parseBlock (c6Chunk.take 47)).2 = "") := by decide
  have hne2 : ¬((parseBlock (c6Chunk.take 47)).2 = "[DONE]") := by decide
  have hdrop : c6Chunk.drop (47 + 2) = ([] : List Char) := by decide
  have hnil : drain ([] : List Char) = ([], [], false) :=
    drain_of_none [] (by decide)
  have hdrain : drain c6Chunk = ([⟨none, c6Payload⟩], [], false) := by
    rw [drain_of_some c6Chunk 47 2 hfb, if_neg hne1, if_neg hne2, hdrop, hnil]
    rfl
  have hfeed : feedAll initDecState [c6Chunk] = ⟨[], [⟨none, c6Payload⟩], false⟩ := by
    show feed initDecState c6Chunk = _
    simp [feed, initDecState, hdrain]
  have hev : (feedAll initDecState [c6Chunk]).events = [⟨none, c6Payload⟩] := by
    rw [hfeed]
  have hrun : callLLMOpenAI [] (LLMOutcome.streamed [c6Chunk] true) =
      runOpenAIStream [] [⟨none, c6Payload⟩] true := by
    show runOpenAIStream [] (feedAll initDecState [c6Chunk]).events true = _
    rw [hev]
  rw [hrun]
  exact ⟨rfl, rfl⟩

/-- C6 (amended): a pre-stream failure of the model call (HTTP error or
fetch rejection) surfaces an error and leaves both the provider history
and the UI transcript exactly as they were; a mid-stream error also
surfaces an error, but first finalizes the turn: when no tool batch was
emitted, the history receives exactly the commit of the accumulated
partial text — the whole streamed text when it is non-whitespace, and
nothing otherwise. -/
theorem model_failure_contract :
    (∀ ui0 : List UiMsg,
        (callLLMOpenAI ui0 LLMOutcome.httpErr).historyAppends = [] ∧
        (callLLMOpenAI ui0 LLMOutcome.httpErr).errorSurfaced = true ∧
        (callLLMOpenAI ui0 LLMOutcome.httpErr).uiFinal = ui0) ∧
    (∀ ui0 : List UiMsg,
        (callLLMOpenAI ui0 LLMOutcome.fetchErr).historyAppends = [] ∧
        (callLLMOpenAI ui0 LLMOutcome.fetchErr).errorSurfaced = true ∧
        (callLLMOpenAI ui0 LLMOutcome.fetchErr).uiFinal = ui0) ∧
    (∀ (ui0 : List UiMsg) (chunks : List (List Char)),
        (callLLMOpenAI ui0 (LLMOutcome.streamed chunks true)).errorSurfaced
          = true) ∧
    (∀ (ui0 : List UiMsg) (chunks : List (List Char)),
        (callLLMOpenAI ui0 (LLMOutcome.streamed chunks true)).batches = [] →
        (callLLMOpenAI ui0 (LLMOutcome.streamed chunks true)).historyAppends =
          (if jsTrim ((feedAll initDecState chunks).events.foldl handleOAIEvent
                (initStreamState ui0)).fullText.toList ≠ []
           then [PMsg.assistantText
                  ((feedAll initDecState chunks).events.foldl handleOAIEvent
                    (initStreamState ui0)).fullText]
           else [])) := by
  refine ⟨fun ui0 => ⟨rfl, rfl, rfl⟩, fun ui0 => ⟨rfl, rfl, rfl⟩,
    fun ui0 chunks => rfl, fun ui0 chunks hb => ?_⟩
  have h2 := foldl_handle_batches_nil (feedAll initDecState chunks).events
    (initStreamState ui0) hb
  show (finishOpenAIStream _ true).historyAppends = _
  unfold finishOpenAIStream
  dsimp only
  rw [h2.1]
  show [] ++ _ = _
  rw [List.nil_append]

/-- C6 witness: an interrupted stream that produced nothing records no
batch and appends nothing, and a pre-stream HTTP failure appends
nothing. -/
theorem model_failure_contract_witness :
    (callLLMOpenAI [] (LLMOutcome.streamed [] true)).batches = [] ∧
    (callLLMOpenAI [] (LLMOutcome.streamed [] true)).historyAppends =
      (if jsTrim ((feedAll initDecState []).events.foldl handleOAIEvent
            (initStreamState [])).fullText.toList ≠ []
       then [PMsg.assistantText
              ((feedAll initDecState []).events.foldl handleOAIEvent
                (initStreamState [])).fullText]
       else []) ∧
    (callLLMOpenAI [] LLMOutcome.httpErr).historyAppends = [] :=
  ⟨rfl, model_failure_contract.2.2.2 [] [] rfl, (model_failure_contract.1 []).1⟩
